import Mathlib

/-!
Verification of the flow-routing and drainage-accumulation engine of the
landlab repository, as described by its specification.  The engine itself
(flow-direction assignment, depression handling, topologically ordered
accumulation, and the raster-grid gradient and flux-divergence helpers) is
not part of the source tree available here, which holds only the tutorial
notebooks that call it; the definitions below are therefore modelled from
the specification text and from the concrete behaviour documented in the
notebooks.  Elevations, areas and fluxes are represented by exact rational
numbers.
-/

/-- Modelled from the spec: per-node boundary classification
(CORE, FIXED_VALUE, FIXED_GRADIENT, CLOSED). -/
inductive NodeStatus where
  | core
  | fixedValue
  | fixedGradient
  | closed
deriving DecidableEq, Repr

/-- Modelled from the spec: the read-only mesh topology supplied by the
external Mesh Topology Provider — node count, per-node adjacency as a list
of (neighbor id, link length) pairs, per-node boundary classification, and
per-node cell area. -/
structure Mesh where
  numNodes : Nat
  adj : List (List (Nat × ℚ))
  status : List NodeStatus
  cellArea : List ℚ
deriving Repr

/-- Boundary classification of a node; out-of-range ids are treated as CLOSED
so that they can never participate in routing. -/
def Mesh.statusOf (m : Mesh) (v : Nat) : NodeStatus :=
  if v < m.numNodes then m.status.getD v .closed else .closed

/-- Adjacency list of a node: (neighbor id, link length) pairs. -/
def Mesh.nbrs (m : Mesh) (v : Nat) : List (Nat × ℚ) :=
  if v < m.numNodes then m.adj.getD v [] else []

/-- Cell area of a node (0 for boundary nodes without a cell). -/
def Mesh.areaOf (m : Mesh) (v : Nat) : ℚ :=
  if v < m.numNodes then m.cellArea.getD v 0 else 0

/-- Value of a per-node input array at a node (0 out of range). -/
def valAt (z : List ℚ) (v : Nat) : ℚ := z.getD v 0

theorem statusOf_of_ge (m : Mesh) {v : Nat} (h : ¬ v < m.numNodes) :
    m.statusOf v = .closed := by
  simp [Mesh.statusOf, h]

theorem statusOf_ne_closed_lt (m : Mesh) {v : Nat}
    (h : m.statusOf v ≠ .closed) : v < m.numNodes := by
  by_contra hlt
  exact h (statusOf_of_ge m hlt)

/-! ## Flow Direction Resolver -/

/-- Modelled from the spec: a candidate receiver must be either CORE or an
open (FIXED_VALUE) boundary node. -/
def canReceive : NodeStatus → Bool
  | .core => true
  | .fixedValue => true
  | _ => false

/-- Downhill gradient from node `v` toward the neighbor pair `p`
(elevation drop divided by link length). -/
def gradTo (z : List ℚ) (v : Nat) (p : Nat × ℚ) : ℚ :=
  (valAt z v - valAt z p.1) / p.2

/-- Modelled from the spec: candidate neighbors of `v` that are CORE or open
boundary and strictly downhill. -/
def downhillNbrs (m : Mesh) (z : List ℚ) (v : Nat) : List (Nat × ℚ) :=
  (m.nbrs v).filter
    (fun p => canReceive (m.statusOf p.1) && decide (valAt z p.1 < valAt z v))

/-- Modelled from the spec: pick the steepest-gradient candidate, breaking
gradient ties by ascending neighbor id (the fixed, non-overridable policy). -/
def pickSteepest (z : List ℚ) (v : Nat) (l : List (Nat × ℚ)) :
    Option (Nat × ℚ) :=
  l.foldl
    (fun best p =>
      match best with
      | none => some p
      | some q =>
          if gradTo z v q < gradTo z v p ∨
              (gradTo z v q = gradTo z v p ∧ p.1 < q.1) then some p else some q)
    none

/-- Modelled from the spec: the Flow Direction Resolver.  A CORE node is
routed to its steepest strictly-downhill candidate neighbor; a CORE node with
no downhill candidate is an unresolved pit and provisionally receives itself;
CLOSED and FIXED boundary nodes never compute a direction and receive
themselves. -/
def dirReceiver (m : Mesh) (z : List ℚ) (v : Nat) : Nat :=
  if m.statusOf v = .core then
    match pickSteepest z v (downhillNbrs m z v) with
    | some p => p.1
    | none => v
  else v

/-- Modelled from the spec: the steepest-gradient field populated by the
resolver; 0 for nodes that compute no direction. -/
def steepestSlope (m : Mesh) (z : List ℚ) (v : Nat) : ℚ :=
  if m.statusOf v = .core then
    match pickSteepest z v (downhillNbrs m z v) with
    | some p => gradTo z v p
    | none => 0
  else 0

/-- Modelled from the spec: an unresolved pit is a CORE node whose
provisional receiver is itself. -/
def isPit (m : Mesh) (z : List ℚ) (v : Nat) : Bool :=
  m.statusOf v == .core && dirReceiver m z v == v

section ResolverLemmas

theorem pickSteepest_mem {z : List ℚ} {v : Nat} :
    ∀ {l : List (Nat × ℚ)} {p : Nat × ℚ} {b : Option (Nat × ℚ)},
      l.foldl
        (fun best q =>
          match best with
          | none => some q
          | some r =>
              if gradTo z v r < gradTo z v q ∨
                  (gradTo z v r = gradTo z v q ∧ q.1 < r.1) then some q
              else some r)
        b = some p →
      (b = some p ∨ p ∈ l)
  | [], p, b, h => Or.inl h
  | q :: l, p, b, h => by
      rcases pickSteepest_mem (l := l) h with h1 | h2
      · cases b with
        | none =>
            simp only [List.foldl] at h1
            have hqp : q = p := Option.some.inj h1
            subst hqp
            exact Or.inr (List.mem_cons_self _ _)
        | some r =>
            simp only [List.foldl] at h1
            by_cases hc : gradTo z v r < gradTo z v q ∨
                (gradTo z v r = gradTo z v q ∧ q.1 < r.1)
            · rw [if_pos hc] at h1
              have hqp : q = p := Option.some.inj h1
              subst hqp
              exact Or.inr (List.mem_cons_self _ _)
            · rw [if_neg hc] at h1
              exact Or.inl h1
      · exact Or.inr (List.mem_cons_of_mem _ h2)

/-- The receiver chosen by the resolver for a CORE node with some downhill
candidate is one of its downhill candidates. -/
theorem dirReceiver_mem_downhill {m : Mesh} {z : List ℚ} {v : Nat}
    (hcore : m.statusOf v = .core) (hne : dirReceiver m z v ≠ v) :
    ∃ p ∈ downhillNbrs m z v, p.1 = dirReceiver m z v := by
  unfold dirReceiver at hne ⊢
  rw [if_pos hcore] at hne ⊢
  cases hp : pickSteepest z v (downhillNbrs m z v) with
  | none => rw [hp] at hne; exact absurd rfl hne
  | some p =>
      simp only [hp] at hne ⊢
      rcases pickSteepest_mem (l := downhillNbrs m z v) hp with h | h
      · exact absurd h (by simp)
      · exact ⟨p, h, rfl⟩

/-- A strictly-downhill receiver edge drops elevation. -/
theorem dirReceiver_elev_lt {m : Mesh} {z : List ℚ} {v : Nat}
    (hne : dirReceiver m z v ≠ v) :
    valAt z (dirReceiver m z v) < valAt z v := by
  by_cases hcore : m.statusOf v = .core
  · rcases dirReceiver_mem_downhill hcore hne with ⟨p, hp, hpv⟩
    have := List.of_mem_filter hp
    simp only [Bool.and_eq_true, decide_eq_true_eq] at this
    rw [← hpv]
    exact this.2
  · unfold dirReceiver at hne
    rw [if_neg hcore] at hne
    exact absurd rfl hne

/-- The target of a non-self resolver edge can receive flow (CORE or open
boundary), hence in particular is not CLOSED. -/
theorem dirReceiver_canReceive {m : Mesh} {z : List ℚ} {v : Nat}
    (hne : dirReceiver m z v ≠ v) :
    canReceive (m.statusOf (dirReceiver m z v)) = true := by
  by_cases hcore : m.statusOf v = .core
  · rcases dirReceiver_mem_downhill hcore hne with ⟨p, hp, hpv⟩
    have := List.of_mem_filter hp
    simp only [Bool.and_eq_true, decide_eq_true_eq] at this
    rw [← hpv]
    exact this.1
  · unfold dirReceiver at hne
    rw [if_neg hcore] at hne
    exact absurd rfl hne

theorem canReceive_ne_closed {s : NodeStatus} (h : canReceive s = true) :
    s ≠ .closed := by
  cases s with
  | closed => cases h
  | _ => intro hcon; cases hcon

end ResolverLemmas

/-- Iterate the receiver map `k` times. -/
def iterRecv (recv : Nat → Nat) : Nat → Nat → Nat
  | 0, u => u
  | k + 1, u => iterRecv recv k (recv u)

/-! ## Depression Handler -/

/-- An entry of the priority-first search: a node, the neighbor through which
it is reached (`via`), and the barrier cost (minimum-of-maximum elevation so
far). A seed has itself as `via` and its own elevation as cost. -/
structure Entry where
  node : Nat
  via : Nat
  cost : ℚ
deriving DecidableEq, Repr

/-- Remove the first lowest-cost entry from a frontier list (FIFO among
equal costs: an entry is replaced only by a strictly cheaper later one). -/
def popMin : List Entry → Option (Entry × List Entry)
  | [] => none
  | e :: es =>
    match popMin es with
    | none => some (e, [])
    | some (f, rest) =>
        if f.cost < e.cost then some (f, e :: rest) else some (e, es)

/-- Modelled from the spec: the search starts simultaneously from all
open-boundary (FIXED_VALUE) nodes, each with itself as via and its own
elevation as cost. -/
def seedEntries (m : Mesh) (z : List ℚ) : List Entry :=
  ((List.range m.numNodes).filter (fun v => m.statusOf v == .fixedValue)).map
    (fun v => ⟨v, v, valAt z v⟩)

/-- Modelled from the spec: expanding a visited node `u` with cost `c` pushes
every not-yet-visited non-CLOSED neighbor with cost `max c (elevation)`. -/
def pushEntries (m : Mesh) (z : List ℚ) (visited : List Entry) (u : Nat)
    (c : ℚ) : List Entry :=
  ((m.nbrs u).filter
      (fun p => m.statusOf p.1 != .closed &&
        !(visited.map Entry.node).contains p.1)).map
    (fun p => ⟨p.1, u, max c (valAt z p.1)⟩)

/-- Modelled from the spec: the priority-first search (lowest barrier
elevation expands first), growing a spanning forest inward from the open
boundary.  Each step pops the first lowest-cost frontier entry; an entry for
an already-visited node is discarded, otherwise the node is visited through
that entry and its unvisited non-CLOSED neighbors are pushed. -/
def pfsAux (m : Mesh) (z : List ℚ) :
    Nat → List Entry → List Entry → List Entry × List Entry
  | 0, visited, frontier => (visited, frontier)
  | fuel + 1, visited, frontier =>
    match popMin frontier with
    | none => (visited, [])
    | some (e, rest) =>
      if (visited.map Entry.node).contains e.node then
        pfsAux m z fuel visited rest
      else
        pfsAux m z fuel (visited ++ [e])
          (rest ++ pushEntries m z (visited ++ [e]) e.node e.cost)

/-- Fuel amply covering every possible frontier insertion of the search. -/
def pfsFuel (m : Mesh) : Nat :=
  m.numNodes + ((List.range m.numNodes).map (fun v => (m.nbrs v).length)).sum + 1

/-- Modelled from the spec: the spanning forest grown by the priority-first
search, as the list of visited entries in pop order. -/
def pfsReach (m : Mesh) (z : List ℚ) : List Entry :=
  (pfsAux m z (pfsFuel m) [] (seedEntries m z)).1

/-- First entry recorded for a node by the search, if the node was reached. -/
def lookupEntry (R : List Entry) (v : Nat) : Option Entry :=
  R.find? (fun e => e.node == v)

/-- Modelled from the spec: a node lies in a depression when the resolver's
receiver chain from it ends in an unresolved pit instead of at the boundary
(the chain reaches its sink within `numNodes` steps, since every non-self
resolver edge drops elevation strictly). -/
def inDepression (m : Mesh) (z : List ℚ) (v : Nat) : Bool :=
  isPit m z (iterRecv (dirReceiver m z) m.numNodes v)

/-- Modelled from the spec: the receiver relation after depression handling.
The handler reroutes every node of each depression — every node whose
resolver chain ends in an unresolved pit — along the priority-first-search
forest: such a node receives the neighbor through which the search first
reached it, so the whole depression (the pit included) drains to its barrier
outlet on the open boundary.  A depression node the search never reached
(disconnected from every open boundary) stays its own sink; every other
node keeps the resolver's receiver. -/
def finalRecv (m : Mesh) (z : List ℚ) (v : Nat) : Nat :=
  if inDepression m z v then
    match lookupEntry (pfsReach m z) v with
    | some e => e.via
    | none => v
  else dirReceiver m z v

/-! ## Accumulator -/

/-- Number of receiver steps from a node to its sink (the self-loop), if the
chain terminates within the given fuel. -/
def chainDepth (recv : Nat → Nat) : Nat → Nat → Option Nat
  | 0, _ => none
  | fuel + 1, v =>
    if recv v = v then some 0 else (chainDepth recv fuel (recv v)).map (· + 1)

/-- The receiver relation is a forest: every chain of receivers reaches a
self-loop (sink) within `n` steps. -/
def Terminating (n : Nat) (recv : Nat → Nat) : Prop :=
  ∀ v, v < n → (chainDepth recv n v).isSome

/-- Whether following receivers from `u` reaches `v` within the given fuel. -/
def reaches (recv : Nat → Nat) : Nat → Nat → Nat → Bool
  | 0, u, v => u == v
  | fuel + 1, u, v => u == v || reaches recv fuel (recv u) v

/-- Membership of `u` in the drainage sub-tree rooted at `v`: following
receivers from `u` arrives at `v`. -/
def drainsTo (n : Nat) (recv : Nat → Nat) (u v : Nat) : Bool :=
  reaches recv n u v

/-- Modelled from the spec: the topological (most-upstream first) order —
the reverse-breadth-first order seeded at sinks, i.e. nodes listed by
strictly decreasing distance-to-sink level. -/
def upstreamOrder (n : Nat) (recv : Nat → Nat) : List Nat :=
  ((List.range (n + 1)).reverse).flatMap
    (fun d => (List.range n).filter (fun v => chainDepth recv n v == some d))

/-- Modelled from the spec: one accumulation step — add the node's own input
to its running total (stored in the output array) and add that total to its
receiver's entry. -/
def accStep (recv : Nat → Nat) (input : Nat → ℚ) (acc : List ℚ) (v : Nat) :
    List ℚ :=
  let t := acc.getD v 0 + input v
  let acc1 := acc.set v t
  if recv v = v then acc1 else acc1.set (recv v) (acc1.getD (recv v) 0 + t)

/-- Modelled from the spec: the Accumulator walks the nodes from most
upstream to most downstream, propagating running totals downstream into an
output array of size `n` initialized to zero. -/
def accumulate (n : Nat) (recv : Nat → Nat) (input : Nat → ℚ) : List ℚ :=
  (upstreamOrder n recv).foldl (accStep recv input) (List.replicate n 0)

/-- Modelled from the spec: drainage area accumulates the per-node cell
areas over the corrected receiver forest. -/
def drainageArea (m : Mesh) (z : List ℚ) : List ℚ :=
  accumulate m.numNodes (finalRecv m z) m.areaOf

/-- Modelled from the spec: discharge accumulates the runoff-weighted
per-node input (cell area times runoff coefficient). -/
def dischargeOf (m : Mesh) (z runoff : List ℚ) : List ℚ :=
  accumulate m.numNodes (finalRecv m z) (fun v => m.areaOf v * valAt runoff v)

/-- Sink nodes: nodes that are their own receiver after depression
handling. -/
def sinkNodes (m : Mesh) (z : List ℚ) : List Nat :=
  (List.range m.numNodes).filter (fun v => finalRecv m z v == v)

/-! ## Pipeline and Query/Export Interface -/

/-- Modelled from the spec: the per-node output arrays exported to
downstream components. -/
structure FlowOutput where
  receivers : List Nat
  slopes : List ℚ
  drainage : List ℚ
  discharge : List ℚ
  sinks : List Nat
deriving DecidableEq, Repr

/-- Modelled from the spec: one full pipeline run — flow direction, then
depression handling, then topologically ordered accumulation — recomputed
from scratch from the input snapshot. -/
def runPipeline (m : Mesh) (z runoff : List ℚ) : FlowOutput :=
  { receivers := (List.range m.numNodes).map (finalRecv m z)
    slopes := (List.range m.numNodes).map (steepestSlope m z)
    drainage := drainageArea m z
    discharge := dischargeOf m z runoff
    sinks := sinkNodes m z }

/-- Configuration errors surfaced immediately by the pipeline. -/
inductive ConfigError where
  | sizeMismatch
  | noOpenBoundary
deriving DecidableEq, Repr

/-- Open-boundary (FIXED_VALUE) nodes of the mesh. -/
def openBoundaryNodes (m : Mesh) : List Nat :=
  (List.range m.numNodes).filter (fun v => m.statusOf v == .fixedValue)

/-- Modelled from the spec: the checked pipeline entry point.  Mismatched
array sizes and, when depression handling is enabled, a topology with zero
open-boundary nodes are fatal configuration errors, surfaced before any
routing is attempted. -/
def runPipelineChecked (m : Mesh) (z runoff : List ℚ) (handleDep : Bool) :
    Except ConfigError FlowOutput :=
  if z.length = m.numNodes ∧ runoff.length = m.numNodes then
    if handleDep ∧ openBoundaryNodes m = [] then .error .noOpenBoundary
    else .ok (runPipeline m z runoff)
  else .error .sizeMismatch

/-! ## Raster-grid gradient and flux-divergence helpers -/

/-- Modelled from the spec: a staggered grid of nodes and directed links
(tail to head), with a face width per link (0 for perimeter links crossing
no cell face), and a cell (with area) at some nodes; perimeter nodes have no
cell.  This is the read-only geometry consumed by the gradient and
flux-divergence one-liners shown in the gradient and divergence tutorial. -/
structure LinkGrid where
  numNodes : Nat
  tails : List Nat
  heads : List Nat
  linkLen : List ℚ
  faceWidth : List ℚ
  hasCell : List Bool
  cellArea : List ℚ
deriving Repr

def LinkGrid.numLinks (g : LinkGrid) : Nat := g.tails.length

def LinkGrid.tailOf (g : LinkGrid) (l : Nat) : Nat := g.tails.getD l 0

def LinkGrid.headOf (g : LinkGrid) (l : Nat) : Nat := g.heads.getD l 0

def LinkGrid.widthOf (g : LinkGrid) (l : Nat) : ℚ := g.faceWidth.getD l 0

def LinkGrid.cellAt (g : LinkGrid) (v : Nat) : Bool := g.hasCell.getD v false

def LinkGrid.areaAt (g : LinkGrid) (v : Nat) : ℚ := g.cellArea.getD v 0

/-- Modelled from the spec: the gradient of a node field, one value per
link — head elevation minus tail elevation, divided by link length. -/
def calc_grad_at_link (g : LinkGrid) (z : List ℚ) : List ℚ :=
  (List.range g.numLinks).map
    (fun l => (valAt z (g.headOf l) - valAt z (g.tailOf l)) / g.linkLen.getD l 1)

/-- Net outgoing volume flux at a node: for each link crossing a face of the
node's cell, the link flux times the face width, counted positively where
the link points out of the cell (tail at the node) and negatively where it
points in (head at the node). -/
def netFluxSum (g : LinkGrid) (q : List ℚ) (v : Nat) : ℚ :=
  ((List.range g.numLinks).map
      (fun l =>
        (if g.tailOf l = v then valAt q l * g.widthOf l else 0) -
          (if g.headOf l = v then valAt q l * g.widthOf l else 0))).sum

/-- Modelled from the spec: total net flux out of each node's cell; zero at
nodes that have no cell. -/
def calc_net_flux_at_node (g : LinkGrid) (q : List ℚ) (v : Nat) : ℚ :=
  if g.cellAt v then netFluxSum g q v else 0

/-- Modelled from the spec: flux divergence at a node — net outgoing flux
divided by cell area, computed only at nodes with a cell; the output array
entry stays zero at every node without a cell. -/
def calc_flux_div_at_node (g : LinkGrid) (q : List ℚ) (v : Nat) : ℚ :=
  if g.cellAt v then netFluxSum g q v / g.areaAt v else 0

/-! ## Concrete meshes from the tutorial geometry -/

/-- A 4-node chain mesh: node 0 an open boundary, nodes 1 to 3 core, with a
single line of links of length 10. -/
def mesh4 : Mesh :=
  { numNodes := 4
    adj := [[(1, 10)], [(0, 10), (2, 10)], [(1, 10), (3, 10)], [(2, 10)]]
    status := [.fixedValue, .core, .core, .core]
    cellArea := [0, 100, 100, 100] }

/-- Elevations for `mesh4`: a high rim at node 1, then a basin whose pit is
node 3 behind rim node 2. -/
def z4 : List ℚ := [0, 10, 3, 1]

/-- The 3-by-4 raster grid of the tutorial (10 m node spacing), with the
bottom edge (nodes 0 to 3) open and the rest of the perimeter closed; the
two interior nodes 5 and 6 are core with 100 m² cells. -/
def mesh12 : Mesh :=
  { numNodes := 12
    adj :=
      [ [(1, 10), (4, 10)]
      , [(0, 10), (2, 10), (5, 10)]
      , [(1, 10), (3, 10), (6, 10)]
      , [(2, 10), (7, 10)]
      , [(0, 10), (5, 10), (8, 10)]
      , [(1, 10), (4, 10), (6, 10), (9, 10)]
      , [(2, 10), (5, 10), (7, 10), (10, 10)]
      , [(3, 10), (6, 10), (11, 10)]
      , [(4, 10), (9, 10)]
      , [(5, 10), (8, 10), (10, 10)]
      , [(6, 10), (9, 10), (11, 10)]
      , [(7, 10), (10, 10)] ]
    status :=
      [.fixedValue, .fixedValue, .fixedValue, .fixedValue,
       .closed, .core, .core, .closed,
       .closed, .closed, .closed, .closed]
    cellArea := [0, 0, 0, 0, 0, 100, 100, 0, 0, 0, 0, 0] }

/-- The tutorial elevation field: zero everywhere except node 5 at 5.0 and
node 6 at 3.6. -/
def z12 : List ℚ := [0, 0, 0, 0, 0, 5, 18/5, 0, 0, 0, 0, 0]

/-- The tutorial 3-by-4 raster grid as a staggered link grid: 17 links in
x-y midpoint order, length 10 each; the 7 links crossing a face of one of
the two cells (at nodes 5 and 6) have face width 10. -/
def gridTut : LinkGrid :=
  { numNodes := 12
    tails := [0, 1, 2, 0, 1, 2, 3, 4, 5, 6, 4, 5, 6, 7, 8, 9, 10]
    heads := [1, 2, 3, 4, 5, 6, 7, 5, 6, 7, 8, 9, 10, 11, 9, 10, 11]
    linkLen := [10, 10, 10, 10, 10, 10, 10, 10, 10, 10, 10, 10, 10, 10, 10, 10, 10]
    faceWidth := [0, 0, 0, 0, 10, 10, 0, 10, 10, 10, 0, 10, 10, 0, 0, 0, 0]
    hasCell := [false, false, false, false, false, true, true, false,
                false, false, false, false]
    cellArea := [0, 0, 0, 0, 0, 100, 100, 0, 0, 0, 0, 0] }

/-- The soil-flux field of the tutorial: q = -D grad z with D = 0.01. -/
def qTut : List ℚ := (calc_grad_at_link gridTut z12).map (fun g => -(1/100) * g)

/-! ## Receiver-chain lemmas -/

theorem chainDepth_self {recv : Nat → Nat} {fuel v : Nat} (h : recv v = v) :
    chainDepth recv (fuel + 1) v = some 0 := by
  simp [chainDepth, h]

theorem chainDepth_step {recv : Nat → Nat} {fuel v : Nat} (h : recv v ≠ v) :
    chainDepth recv (fuel + 1) v = (chainDepth recv fuel (recv v)).map (· + 1) := by
  simp [chainDepth, h]

theorem chainDepth_mono {recv : Nat → Nat} :
    ∀ {fuel fuel' v d : Nat}, chainDepth recv fuel v = some d → fuel ≤ fuel' →
      chainDepth recv fuel' v = some d
  | 0, _, _, _, h, _ => by simp [chainDepth] at h
  | fuel + 1, fuel' + 1, v, d, h, hle => by
      by_cases hv : recv v = v
      · rw [chainDepth_self hv] at h ⊢
        exact h
      · rw [chainDepth_step hv] at h ⊢
        cases hc : chainDepth recv fuel (recv v) with
        | none => rw [hc] at h; simp at h
        | some d' =>
            rw [hc] at h
            rw [chainDepth_mono hc (Nat.le_of_succ_le_succ hle)]
            exact h

theorem chainDepth_unique {recv : Nat → Nat} {f1 f2 v d1 d2 : Nat}
    (h1 : chainDepth recv f1 v = some d1) (h2 : chainDepth recv f2 v = some d2) :
    d1 = d2 := by
  rcases Nat.le_total f1 f2 with h | h
  · rw [chainDepth_mono h1 h] at h2
    exact Option.some.inj h2
  · rw [chainDepth_mono h2 h] at h1
    exact (Option.some.inj h1).symm

theorem chainDepth_lt_fuel {recv : Nat → Nat} :
    ∀ {fuel v d : Nat}, chainDepth recv fuel v = some d → d < fuel
  | 0, _, _, h => by simp [chainDepth] at h
  | fuel + 1, v, d, h => by
      by_cases hv : recv v = v
      · rw [chainDepth_self hv] at h
        cases h
        exact Nat.succ_pos _
      · rw [chainDepth_step hv] at h
        cases hc : chainDepth recv fuel (recv v) with
        | none => rw [hc] at h; simp at h
        | some d' =>
            rw [hc] at h
            simp only [Option.map_some'] at h
            cases h
            exact Nat.succ_lt_succ (chainDepth_lt_fuel hc)

/-- Distance-to-sink of a node in a terminating receiver forest. -/
def depthOf (n : Nat) (recv : Nat → Nat) (v : Nat) : Nat :=
  (chainDepth recv n v).getD 0

theorem depthOf_spec {n : Nat} {recv : Nat → Nat} (hT : Terminating n recv)
    {v : Nat} (hv : v < n) : chainDepth recv n v = some (depthOf n recv v) := by
  rcases Option.isSome_iff_exists.mp (hT v hv) with ⟨d, hd⟩
  rw [depthOf, hd]
  rfl

theorem depthOf_zero_iff {n : Nat} {recv : Nat → Nat} (hT : Terminating n recv)
    {v : Nat} (hv : v < n) : depthOf n recv v = 0 ↔ recv v = v := by
  have hd := depthOf_spec hT hv
  constructor
  · intro h0
    rw [h0] at hd
    by_contra hne
    cases n with
    | zero => exact absurd hv (by omega)
    | succ k =>
        rw [chainDepth_step hne] at hd
        cases hc : chainDepth recv k (recv v) with
        | none => rw [hc] at hd; simp at hd
        | some d' => rw [hc] at hd; simp at hd
  · intro hself
    cases n with
    | zero => exact absurd hv (by omega)
    | succ k =>
        have := @chainDepth_self recv k _ hself
        exact chainDepth_unique hd this

theorem depthOf_step {n : Nat} {recv : Nat → Nat} (hT : Terminating n recv)
    (hR : ∀ v, v < n → recv v < n) {v : Nat} (hv : v < n) (hne : recv v ≠ v) :
    depthOf n recv v = depthOf n recv (recv v) + 1 := by
  have hd := depthOf_spec hT hv
  have hd' := depthOf_spec hT (hR v hv)
  cases n with
  | zero => exact absurd hv (by omega)
  | succ k =>
      rw [chainDepth_step hne] at hd
      cases hc : chainDepth recv k (recv v) with
      | none => rw [hc] at hd; simp at hd
      | some d' =>
          rw [hc] at hd
          simp only [Option.map_some'] at hd
          have : d' = depthOf (k + 1) recv (recv v) :=
            chainDepth_unique (chainDepth_mono hc (Nat.le_succ k)) hd'
          have h2 := Option.some.inj hd
          omega


theorem iterRecv_succ_out (recv : Nat → Nat) :
    ∀ (k u : Nat), iterRecv recv (k + 1) u = recv (iterRecv recv k u)
  | 0, u => rfl
  | k + 1, u => iterRecv_succ_out recv k (recv u)

theorem iterRecv_add (recv : Nat → Nat) (a : Nat) :
    ∀ (b u : Nat), iterRecv recv (a + b) u = iterRecv recv b (iterRecv recv a u)
  | 0, _ => rfl
  | b + 1, u => by
      show iterRecv recv ((a + b) + 1) u = _
      rw [iterRecv_succ_out, iterRecv_add recv a b u]
      exact (iterRecv_succ_out recv b _).symm

theorem iterRecv_lt {n : Nat} {recv : Nat → Nat}
    (hR : ∀ v, v < n → recv v < n) :
    ∀ (k : Nat) {u : Nat}, u < n → iterRecv recv k u < n
  | 0, u, hu => hu
  | k + 1, u, hu => iterRecv_lt hR k (hR u hu)

theorem iterRecv_sink {recv : Nat → Nat} {s : Nat} (hs : recv s = s) :
    ∀ k, iterRecv recv k s = s
  | 0 => rfl
  | k + 1 => by rw [iterRecv_succ_out, iterRecv_sink hs k, hs]

theorem depthOf_lt {n : Nat} {recv : Nat → Nat} (hT : Terminating n recv)
    {v : Nat} (hv : v < n) : depthOf n recv v < n :=
  chainDepth_lt_fuel (depthOf_spec hT hv)

theorem depthOf_iter {n : Nat} {recv : Nat → Nat} (hT : Terminating n recv)
    (hR : ∀ v, v < n → recv v < n) :
    ∀ (k : Nat) {u : Nat}, u < n → k ≤ depthOf n recv u →
      depthOf n recv (iterRecv recv k u) = depthOf n recv u - k
  | 0, u, hu, _ => by simp [iterRecv]
  | k + 1, u, hu, hk => by
      have hne : recv u ≠ u := by
        intro hself
        rw [(depthOf_zero_iff hT hu).mpr hself] at hk
        omega
      have hstep := depthOf_step hT hR hu hne
      have hk' : k ≤ depthOf n recv (recv u) := by omega
      show depthOf n recv (iterRecv recv k (recv u)) = depthOf n recv u - (k + 1)
      rw [depthOf_iter hT hR k (hR u hu) hk', hstep]
      omega

theorem iterRecv_end_sink {n : Nat} {recv : Nat → Nat} (hT : Terminating n recv)
    (hR : ∀ v, v < n → recv v < n) {u : Nat} (hu : u < n) :
    recv (iterRecv recv (depthOf n recv u) u) =
      iterRecv recv (depthOf n recv u) u := by
  have h0 : depthOf n recv (iterRecv recv (depthOf n recv u) u) = 0 := by
    rw [depthOf_iter hT hR _ hu (Nat.le_refl _)]
    omega
  exact (depthOf_zero_iff hT (iterRecv_lt hR _ hu)).mp h0

theorem iterRecv_stable {n : Nat} {recv : Nat → Nat} (hT : Terminating n recv)
    (hR : ∀ v, v < n → recv v < n) {u : Nat} (hu : u < n) {k : Nat}
    (hk : depthOf n recv u ≤ k) :
    iterRecv recv k u = iterRecv recv (depthOf n recv u) u := by
  have h1 : k = depthOf n recv u + (k - depthOf n recv u) := by omega
  rw [h1, iterRecv_add]
  exact iterRecv_sink (iterRecv_end_sink hT hR hu) _

/-- The resolver's receiver stays inside the mesh on non-self edges. -/
theorem dirReceiver_lt {m : Mesh} {z : List ℚ} {v : Nat}
    (hne : dirReceiver m z v ≠ v) : dirReceiver m z v < m.numNodes :=
  statusOf_ne_closed_lt m (canReceive_ne_closed (dirReceiver_canReceive hne))

theorem dirReceiver_of_not_core {m : Mesh} {z : List ℚ} {v : Nat}
    (h : ¬ m.statusOf v = .core) : dirReceiver m z v = v := by
  unfold dirReceiver
  rw [if_neg h]

/-- Since every non-self resolver edge strictly drops elevation, the
resolver's receiver chain reaches a self-receiver within `numNodes`
steps. -/
theorem dirRecv_iter_fixed (m : Mesh) (z : List ℚ) (v : Nat) :
    dirReceiver m z (iterRecv (dirReceiver m z) m.numNodes v) =
      iterRecv (dirReceiver m z) m.numNodes v := by
  set recv := dirReceiver m z with hrecv
  set n := m.numNodes with hn
  by_contra hfix
  have hnot : ∀ k, k ≤ n → recv (iterRecv recv k v) ≠ iterRecv recv k v := by
    intro k hk hcon
    apply hfix
    have h2 : n = k + (n - k) := by omega
    rw [h2, iterRecv_add, iterRecv_sink hcon]
    exact hcon
  have hdesc : ∀ k l, k < l → l ≤ n →
      valAt z (iterRecv recv l v) < valAt z (iterRecv recv k v) := by
    intro k l
    induction l with
    | zero => omega
    | succ l ih =>
      intro hkl hl
      have hstep : valAt z (iterRecv recv (l + 1) v) <
          valAt z (iterRecv recv l v) := by
        rw [iterRecv_succ_out]
        exact dirReceiver_elev_lt (hnot l (by omega))
      rcases Nat.lt_or_ge k l with h | h
      · exact lt_trans hstep (ih h (by omega))
      · have hkeq : k = l := by omega
        rw [hkeq]
        exact hstep
  have hin : ∀ k, k ≤ n → iterRecv recv k v < n := by
    intro k hk
    cases k with
    | zero =>
      show iterRecv recv 0 v < n
      by_contra hv
      have hv' : ¬ v < n := hv
      have hcl : m.statusOf v = .closed := statusOf_of_ge m hv'
      refine hnot 0 (by omega) (dirReceiver_of_not_core ?_)
      show ¬ m.statusOf v = .core
      rw [hcl]
      simp
    | succ k =>
      rw [iterRecv_succ_out]
      exact dirReceiver_lt (hnot k (by omega))
  have hinj : Set.InjOn (fun k => iterRecv recv k v)
      (Finset.range (n + 1)) := by
    intro a ha b hb hab
    simp only [Finset.coe_range, Set.mem_Iio] at ha hb
    dsimp only at hab
    by_contra hne
    rcases Nat.lt_or_ge a b with h | h
    · have hlt := hdesc a b h (by omega)
      rw [hab] at hlt
      exact lt_irrefl _ hlt
    · have hba : b < a := by omega
      have hlt := hdesc b a hba (by omega)
      rw [hab] at hlt
      exact lt_irrefl _ hlt
  have hmaps : ∀ a ∈ Finset.range (n + 1),
      iterRecv recv a v ∈ Finset.range n := by
    intro a ha
    rw [Finset.mem_range] at ha ⊢
    exact hin a (by omega)
  have hcard := Finset.card_le_card_of_injOn _ hmaps hinj
  simp only [Finset.card_range] at hcard
  omega

/-- Depression membership is invariant along resolver edges. -/
theorem inDepression_dirReceiver (m : Mesh) (z : List ℚ) (v : Nat) :
    inDepression m z (dirReceiver m z v) = inDepression m z v := by
  unfold inDepression
  have h1 : iterRecv (dirReceiver m z) m.numNodes (dirReceiver m z v) =
      iterRecv (dirReceiver m z) (m.numNodes + 1) v := rfl
  rw [h1, iterRecv_succ_out, dirRecv_iter_fixed]

theorem isPit_fixed {m : Mesh} {z : List ℚ} {p : Nat}
    (hpit : isPit m z p = true) : dirReceiver m z p = p := by
  unfold isPit at hpit
  rw [Bool.and_eq_true, beq_iff_eq, beq_iff_eq] at hpit
  exact hpit.2

/-- A pit is itself the end of its resolver chain, hence in a depression. -/
theorem inDepression_of_pit {m : Mesh} {z : List ℚ} {p : Nat}
    (hpit : isPit m z p = true) : inDepression m z p = true := by
  unfold inDepression
  rw [iterRecv_sink (isPit_fixed hpit)]
  exact hpit

theorem reaches_iff_iter {recv : Nat → Nat} :
    ∀ {fuel u v : Nat},
      reaches recv fuel u v = true ↔ ∃ k, k ≤ fuel ∧ iterRecv recv k u = v := by
  intro fuel
  induction fuel with
  | zero =>
      intro u v
      simp only [reaches, beq_iff_eq]
      constructor
      · intro h; exact ⟨0, Nat.le_refl 0, h⟩
      · rintro ⟨k, hk, hiter⟩
        have : k = 0 := Nat.le_zero.mp hk
        subst this
        exact hiter
  | succ fuel ih =>
      intro u v
      simp only [reaches, Bool.or_eq_true, beq_iff_eq, ih]
      constructor
      · rintro (h | ⟨k, hk, hiter⟩)
        · exact ⟨0, Nat.zero_le _, h⟩
        · exact ⟨k + 1, Nat.succ_le_succ hk, hiter⟩
      · rintro ⟨k, hk, hiter⟩
        cases k with
        | zero => exact Or.inl hiter
        | succ k => exact Or.inr ⟨k, Nat.le_of_succ_le_succ hk, hiter⟩

theorem drainsTo_iff {n : Nat} {recv : Nat → Nat} {u v : Nat} :
    drainsTo n recv u v = true ↔ ∃ k, k ≤ n ∧ iterRecv recv k u = v :=
  reaches_iff_iter

theorem drainsTo_self (n : Nat) (recv : Nat → Nat) (v : Nat) :
    drainsTo n recv v v = true :=
  drainsTo_iff.mpr ⟨0, Nat.zero_le _, rfl⟩

/-- Whenever `u` drains to `v` it does so within `depthOf u` steps. -/
theorem drainsTo_iff_le_depth {n : Nat} {recv : Nat → Nat}
    (hT : Terminating n recv) (hR : ∀ v, v < n → recv v < n) {u v : Nat}
    (hu : u < n) :
    drainsTo n recv u v = true ↔
      ∃ k, k ≤ depthOf n recv u ∧ iterRecv recv k u = v := by
  rw [drainsTo_iff]
  constructor
  · rintro ⟨k, hk, hiter⟩
    by_cases hle : k ≤ depthOf n recv u
    · exact ⟨k, hle, hiter⟩
    · refine ⟨depthOf n recv u, Nat.le_refl _, ?_⟩
      have hst := iterRecv_stable hT hR hu
        (show depthOf n recv u ≤ k by omega)
      rw [← hst]
      exact hiter
  · rintro ⟨k, hk, hiter⟩
    exact ⟨k, Nat.le_trans hk (Nat.le_of_lt (depthOf_lt hT hu)), hiter⟩

theorem drainsTo_trans {n : Nat} {recv : Nat → Nat} (hT : Terminating n recv)
    (hR : ∀ v, v < n → recv v < n) {u w x : Nat} (hu : u < n)
    (h1 : drainsTo n recv u w = true) (h2 : drainsTo n recv w x = true) :
    drainsTo n recv u x = true := by
  rcases (drainsTo_iff_le_depth hT hR hu).mp h1 with ⟨k1, hk1, hi1⟩
  have hw : w < n := by rw [← hi1]; exact iterRecv_lt hR _ hu
  rcases (drainsTo_iff_le_depth hT hR hw).mp h2 with ⟨k2, hk2, hi2⟩
  have hdw : depthOf n recv w = depthOf n recv u - k1 := by
    rw [← hi1]; exact depthOf_iter hT hR _ hu hk1
  have hdu := depthOf_lt hT hu
  refine (drainsTo_iff_le_depth hT hR hu).mpr ⟨k1 + k2, by omega, ?_⟩
  rw [iterRecv_add, hi1, hi2]

theorem depthOf_lt_of_drainsTo {n : Nat} {recv : Nat → Nat}
    (hT : Terminating n recv) (hR : ∀ v, v < n → recv v < n) {u v : Nat}
    (hu : u < n) (hdr : drainsTo n recv u v = true) (hne : u ≠ v) :
    depthOf n recv v < depthOf n recv u := by
  rcases (drainsTo_iff_le_depth hT hR hu).mp hdr with ⟨k, hk, hiter⟩
  have hpos : 0 < depthOf n recv u := by
    rcases Nat.eq_zero_or_pos (depthOf n recv u) with h0 | h
    · exfalso
      have hs : recv u = u := (depthOf_zero_iff hT hu).mp h0
      rw [iterRecv_sink hs] at hiter
      exact hne hiter
    · exact h
  have hkpos : 0 < k := by
    rcases Nat.eq_zero_or_pos k with h0 | h
    · subst h0; exact absurd hiter hne
    · exact h
  have := depthOf_iter hT hR k hu hk
  rw [hiter] at this
  omega

/-- The donors of `v`: nodes other than `v` whose receiver is `v`. -/
def donorSet (n : Nat) (recv : Nat → Nat) (v : Nat) : Finset Nat :=
  (Finset.range n).filter (fun d => recv d = v ∧ d ≠ v)

/-- Sum of an input quantity over the drainage sub-tree rooted at `v`. -/
def subtreeSum (n : Nat) (recv : Nat → Nat) (input : Nat → ℚ) (v : Nat) : ℚ :=
  ∑ u ∈ Finset.range n, if drainsTo n recv u v = true then input u else 0

theorem subtreeSum_eq_filter (n : Nat) (recv : Nat → Nat) (input : Nat → ℚ)
    (v : Nat) :
    subtreeSum n recv input v =
      ∑ u ∈ (Finset.range n).filter (fun u => drainsTo n recv u v = true),
        input u :=
  (Finset.sum_filter _ _).symm

theorem drainsTo_comparable {n : Nat} {recv : Nat → Nat} {u a b : Nat}
    (ha : drainsTo n recv u a = true) (hb : drainsTo n recv u b = true) :
    drainsTo n recv a b = true ∨ drainsTo n recv b a = true := by
  rcases drainsTo_iff.mp ha with ⟨k1, hk1, hi1⟩
  rcases drainsTo_iff.mp hb with ⟨k2, hk2, hi2⟩
  rcases Nat.le_total k1 k2 with h | h
  · left
    refine drainsTo_iff.mpr ⟨k2 - k1, by omega, ?_⟩
    rw [← hi1, ← iterRecv_add]
    rw [show k1 + (k2 - k1) = k2 by omega]
    exact hi2
  · right
    refine drainsTo_iff.mpr ⟨k1 - k2, by omega, ?_⟩
    rw [← hi2, ← iterRecv_add]
    rw [show k2 + (k1 - k2) = k1 by omega]
    exact hi1

theorem drainsTo_of_donor {n : Nat} {recv : Nat → Nat} {d v : Nat}
    (hn : 0 < n) (hrd : recv d = v) : drainsTo n recv d v = true := by
  cases n with
  | zero => omega
  | succ k =>
      refine drainsTo_iff.mpr ⟨1, by omega, ?_⟩
      show iterRecv recv 0 (recv d) = v
      exact hrd

/-- Every node that drains to `v` from elsewhere does so through a donor of
`v`, and through only one. -/
theorem drainsTo_donor_split {n : Nat} {recv : Nat → Nat}
    (hT : Terminating n recv) (hR : ∀ v, v < n → recv v < n) {u v : Nat}
    (hu : u < n) (hv : v < n) (hdr : drainsTo n recv u v = true)
    (hne : u ≠ v) :
    ∃ d, d ∈ donorSet n recv v ∧ drainsTo n recv u d = true := by
  have hex : ∃ k, iterRecv recv k u = v := by
    rcases drainsTo_iff.mp hdr with ⟨k, _, hi⟩
    exact ⟨k, hi⟩
  classical
  let k0 := Nat.find hex
  have hk0 : iterRecv recv k0 u = v := Nat.find_spec hex
  have hk0pos : 0 < k0 := by
    rcases Nat.eq_zero_or_pos k0 with h0 | h
    · exfalso
      have : iterRecv recv 0 u = v := by rw [← h0]; exact hk0
      exact hne this
    · exact h
  have hk0le : k0 ≤ n := by
    rcases drainsTo_iff.mp hdr with ⟨k, hk, hi⟩
    exact Nat.le_trans (Nat.find_min' hex hi) hk
  refine ⟨iterRecv recv (k0 - 1) u, ?_, ?_⟩
  · rw [donorSet, Finset.mem_filter, Finset.mem_range]
    refine ⟨iterRecv_lt hR _ hu, ?_, ?_⟩
    · have hs := iterRecv_succ_out recv (k0 - 1) u
      rw [show k0 - 1 + 1 = k0 by omega] at hs
      rw [← hs]
      exact hk0
    · intro hdv
      exact absurd hdv (Nat.find_min hex (by omega))
  · exact drainsTo_iff.mpr ⟨k0 - 1, by omega, rfl⟩

theorem donor_depth {n : Nat} {recv : Nat → Nat} (hT : Terminating n recv)
    (hR : ∀ v, v < n → recv v < n) {d v : Nat} (hd : d ∈ donorSet n recv v) :
    depthOf n recv d = depthOf n recv v + 1 := by
  rw [donorSet, Finset.mem_filter, Finset.mem_range] at hd
  have := depthOf_step hT hR hd.1 (by rw [hd.2.1]; exact (hd.2.2).symm)
  rw [hd.2.1] at this
  exact this

/-- Distinct donors of `v` have disjoint drainage sub-trees. -/
theorem donor_subtrees_disjoint {n : Nat} {recv : Nat → Nat}
    (hT : Terminating n recv) (hR : ∀ v, v < n → recv v < n) {v : Nat}
    {d1 d2 : Nat} (h1 : d1 ∈ donorSet n recv v) (h2 : d2 ∈ donorSet n recv v)
    (hne : d1 ≠ d2) {u : Nat} (hu : u < n)
    (hu1 : drainsTo n recv u d1 = true) (hu2 : drainsTo n recv u d2 = true) :
    False := by
  have hd1 : d1 < n := by
    rw [donorSet, Finset.mem_filter, Finset.mem_range] at h1; exact h1.1
  have hd2 : d2 < n := by
    rw [donorSet, Finset.mem_filter, Finset.mem_range] at h2; exact h2.1
  have hdep1 := donor_depth hT hR h1
  have hdep2 := donor_depth hT hR h2
  rcases drainsTo_comparable hu1 hu2 with h | h
  · have := depthOf_lt_of_drainsTo hT hR hd1 h hne
    omega
  · have := depthOf_lt_of_drainsTo hT hR hd2 h (Ne.symm hne)
    omega

/-- Partition of a drainage sub-tree: the root plus the sub-trees of its
donors. -/
theorem subtreeSum_partition {n : Nat} {recv : Nat → Nat}
    (hT : Terminating n recv) (hR : ∀ v, v < n → recv v < n)
    (input : Nat → ℚ) {v : Nat} (hv : v < n) :
    subtreeSum n recv input v =
      input v + ∑ d ∈ donorSet n recv v, subtreeSum n recv input d := by
  classical
  rw [subtreeSum_eq_filter]
  have hvS : v ∈ (Finset.range n).filter
      (fun u => drainsTo n recv u v = true) := by
    rw [Finset.mem_filter, Finset.mem_range]
    exact ⟨hv, drainsTo_self n recv v⟩
  rw [← Finset.add_sum_erase _ input hvS]
  congr 1
  have hsplit : ((Finset.range n).filter
        (fun u => drainsTo n recv u v = true)).erase v =
      (donorSet n recv v).biUnion
        (fun d => (Finset.range n).filter
          (fun u => drainsTo n recv u d = true)) := by
    ext u
    rw [Finset.mem_erase, Finset.mem_filter, Finset.mem_range,
      Finset.mem_biUnion]
    constructor
    · rintro ⟨hune, hultn, hdr⟩
      rcases drainsTo_donor_split hT hR hultn hv hdr hune with ⟨d, hd, hud⟩
      exact ⟨d, hd, by
        rw [Finset.mem_filter, Finset.mem_range]
        exact ⟨hultn, hud⟩⟩
    · rintro ⟨d, hd, hu⟩
      rw [Finset.mem_filter, Finset.mem_range] at hu
      have hdmem := hd
      rw [donorSet, Finset.mem_filter, Finset.mem_range] at hdmem
      have hdv : drainsTo n recv d v = true :=
        drainsTo_of_donor (by omega) hdmem.2.1
      have hdrv : drainsTo n recv u v = true :=
        drainsTo_trans hT hR hu.1 hu.2 hdv
      refine ⟨?_, hu.1, hdrv⟩
      intro huv
      subst huv
      have h1 := depthOf_lt_of_drainsTo hT hR hu.1 hu.2 (Ne.symm hdmem.2.2)
      have h2 := donor_depth hT hR hd
      omega
  rw [hsplit]
  rw [Finset.sum_biUnion]
  · apply Finset.sum_congr rfl
    intro d _
    exact (subtreeSum_eq_filter n recv input d).symm
  · intro d1 hd1 d2 hd2 hne
    rw [Finset.mem_coe] at hd1 hd2
    show Disjoint _ _
    refine Finset.disjoint_left.mpr ?_
    intro u hu1 hu2
    rw [Finset.mem_filter, Finset.mem_range] at hu1 hu2
    exact donor_subtrees_disjoint hT hR hd1 hd2 hne hu1.1 hu1.2 hu2.2

theorem valAt_set_self {l : List ℚ} {i : Nat} (h : i < l.length) (x : ℚ) :
    valAt (l.set i x) i = x := by
  simp [valAt, List.getD, List.getElem?_set_self, h]

theorem valAt_set_ne {l : List ℚ} {i j : Nat} (h : i ≠ j) (x : ℚ) :
    valAt (l.set i x) j = valAt l j := by
  simp [valAt, List.getD, List.getElem?_set_ne, h]

theorem valAt_replicate_zero {n i : Nat} : valAt (List.replicate n (0:ℚ)) i = 0 := by
  rcases Nat.lt_or_ge i n with h | h
  · simp [valAt, List.getD, List.getElem?_replicate, h]
  · simp [valAt, List.getD, List.getElem?_eq_none, h]

/-- Invariant of the accumulation walk: processed nodes hold their final
sub-tree sum; unprocessed nodes hold the sums of their already-processed
donors. -/
theorem accumulate_go {n : Nat} {recv : Nat → Nat} {input : Nat → ℚ}
    (hT : Terminating n recv) (hR : ∀ v, v < n → recv v < n) :
    ∀ (rest P : List Nat) (acc : List ℚ),
      (∀ v, v ∈ P ++ rest ↔ v < n) →
      (P ++ rest).Nodup →
      List.Pairwise (fun a b => recv b ≠ a) (P ++ rest) →
      acc.length = n →
      (∀ v ∈ P, valAt acc v = subtreeSum n recv input v) →
      (∀ v, v < n → v ∉ P →
        valAt acc v = ∑ d ∈ (donorSet n recv v).filter (fun d => d ∈ P),
          subtreeSum n recv input d) →
      ∀ v, v < n →
        valAt (rest.foldl (accStep recv input) acc) v =
          subtreeSum n recv input v
  | [], P, acc, hmem, _, _, _, hin1, _, v, hv => by
      simp only [List.foldl]
      exact hin1 v (by simpa using (hmem v).mpr hv)
  | w :: rest', P, acc, hmem, hnd, hpair, hlen, hin1, hin2, v, hv => by
      classical
      have hw : w < n := (hmem w).mp (by simp)
      have hndparts := List.nodup_append.mp hnd
      have hwP : w ∉ P := by
        intro hcon
        exact (hndparts.2.2 hcon) (by simp)
      have hpairparts := List.pairwise_append.mp hpair
      have hwall : ∀ b ∈ rest', recv b ≠ w :=
        (List.pairwise_cons.mp hpairparts.2.1).1
      have hcross : ∀ a ∈ P, ∀ b ∈ w :: rest', recv b ≠ a := hpairparts.2.2
      have hdonP : ∀ d ∈ donorSet n recv w, d ∈ P := by
        intro d hd
        rw [donorSet, Finset.mem_filter, Finset.mem_range] at hd
        have hdL : d ∈ P ++ w :: rest' := (hmem d).mpr hd.1
        rcases List.mem_append.mp hdL with h | h
        · exact h
        · rcases List.mem_cons.mp h with h1 | h1
          · exact absurd h1 hd.2.2
          · exact absurd hd.2.1 (hwall d h1)
      have hvalw : valAt acc w + input w = subtreeSum n recv input w := by
        rw [hin2 w hw hwP, Finset.filter_true_of_mem hdonP,
          subtreeSum_partition hT hR input hw]
        ring
      rw [List.foldl_cons]
      by_cases hrw : recv w = w
      · have hacc' : accStep recv input acc w =
            acc.set w (valAt acc w + input w) := by
          unfold accStep
          rw [if_pos hrw]
          rfl
        rw [hacc']
        refine accumulate_go hT hR rest' (P ++ [w]) _ ?_ ?_ ?_ ?_ ?_ ?_ v hv
        · intro u
          rw [show (P ++ [w]) ++ rest' = P ++ w :: rest' by simp]
          exact hmem u
        · rw [show (P ++ [w]) ++ rest' = P ++ w :: rest' by simp]
          exact hnd
        · rw [show (P ++ [w]) ++ rest' = P ++ w :: rest' by simp]
          exact hpair
        · rw [List.length_set]; exact hlen
        · intro u hu
          rcases List.mem_append.mp hu with h | h
          · have hne : w ≠ u := by
              intro hcon; subst hcon; exact hwP h
            rw [valAt_set_ne hne]
            exact hin1 u h
          · have hu' : u = w := by simpa using h
            subst hu'
            rw [valAt_set_self (by rw [hlen]; exact hw)]
            exact hvalw
        · intro u hun huP
          have hunw : u ≠ w := by
            intro hcon; subst hcon; exact huP (by simp)
          have huP' : u ∉ P := fun hc => huP (by simp [hc])
          rw [valAt_set_ne (fun hc => hunw hc.symm)]
          rw [hin2 u hun huP']
          apply Finset.sum_congr
          · apply Finset.filter_congr
            intro d hd
            rw [donorSet, Finset.mem_filter, Finset.mem_range] at hd
            constructor
            · intro hdp
              simp only [List.mem_append, List.mem_singleton]
              exact Or.inl hdp
            · intro hdp
              rcases List.mem_append.mp hdp with h | h
              · exact h
              · exfalso
                have : d = w := by simpa using h
                subst this
                rw [hrw] at hd
                exact hunw hd.2.1.symm
          · intro x _; rfl
      · have hr : recv w < n := hR w hw
        have hrwne : recv w ≠ w := hrw
        have hrP : recv w ∉ P := by
          intro hcon
          exact hcross (recv w) hcon w (by simp) rfl
        have hacc0 : accStep recv input acc w =
            (acc.set w (valAt acc w + input w)).set (recv w)
              (valAt (acc.set w (valAt acc w + input w)) (recv w) +
                (valAt acc w + input w)) := by
          unfold accStep
          rw [if_neg hrw]
          rfl
        have hacc' : accStep recv input acc w =
            (acc.set w (valAt acc w + input w)).set (recv w)
              (valAt acc (recv w) + (valAt acc w + input w)) := by
          rw [hacc0, valAt_set_ne (fun hc => hrw hc.symm)]
        rw [hacc']
        refine accumulate_go hT hR rest' (P ++ [w]) _ ?_ ?_ ?_ ?_ ?_ ?_ v hv
        · intro u
          rw [show (P ++ [w]) ++ rest' = P ++ w :: rest' by simp]
          exact hmem u
        · rw [show (P ++ [w]) ++ rest' = P ++ w :: rest' by simp]
          exact hnd
        · rw [show (P ++ [w]) ++ rest' = P ++ w :: rest' by simp]
          exact hpair
        · rw [List.length_set, List.length_set]; exact hlen
        · intro u hu
          rcases List.mem_append.mp hu with h | h
          · have hne1 : w ≠ u := by
              intro hcon; subst hcon; exact hwP h
            have hne2 : recv w ≠ u := by
              intro hcon; subst hcon; exact hrP h
            rw [valAt_set_ne hne2, valAt_set_ne hne1]
            exact hin1 u h
          · have hu' : u = w := by simpa using h
            subst hu'
            rw [valAt_set_ne hrwne, valAt_set_self (by rw [hlen]; exact hw)]
            exact hvalw
        · intro u hun huP
          have hunw : u ≠ w := by
            intro hcon; subst hcon; exact huP (by simp)
          have huP' : u ∉ P := fun hc => huP (by simp [hc])
          by_cases hur : u = recv w
          · subst hur
            rw [valAt_set_self (by rw [List.length_set, hlen]; exact hr)]
            have hwdon : w ∈ donorSet n recv (recv w) := by
              rw [donorSet, Finset.mem_filter, Finset.mem_range]
              exact ⟨hw, rfl, fun hc => hrw hc.symm⟩
            have hsplit : (donorSet n recv (recv w)).filter
                  (fun d => d ∈ P ++ [w]) =
                insert w ((donorSet n recv (recv w)).filter (fun d => d ∈ P)) := by
              ext d
              rw [Finset.mem_filter, Finset.mem_insert, Finset.mem_filter]
              constructor
              · rintro ⟨hd1, hd2⟩
                rcases List.mem_append.mp hd2 with h | h
                · exact Or.inr ⟨hd1, h⟩
                · exact Or.inl (by simpa using h)
              · rintro (h | ⟨hd1, hd2⟩)
                · subst h
                  exact ⟨hwdon, by simp⟩
                · exact ⟨hd1, by simp [hd2]⟩
            rw [hin2 (recv w) hr hrP, hsplit, Finset.sum_insert]
            · rw [hvalw]
              ring
            · rw [Finset.mem_filter]
              rintro ⟨_, hc⟩
              exact hwP hc
          · rw [valAt_set_ne (fun hc => hur hc.symm),
              valAt_set_ne (fun hc => hunw hc.symm)]
            rw [hin2 u hun huP']
            apply Finset.sum_congr
            · apply Finset.filter_congr
              intro d hd
              rw [donorSet, Finset.mem_filter, Finset.mem_range] at hd
              constructor
              · intro hdp
                simp only [List.mem_append, List.mem_singleton]
                exact Or.inl hdp
              · intro hdp
                rcases List.mem_append.mp hdp with h | h
                · exact h
                · exfalso
                  have : d = w := by simpa using h
                  subst this
                  exact hur hd.2.1.symm
            · intro x _; rfl

theorem mem_depth_level {n d : Nat} {recv : Nat → Nat} {v : Nat} :
    v ∈ (List.range n).filter (fun v => chainDepth recv n v == some d) ↔
      v < n ∧ chainDepth recv n v = some d := by
  rw [List.mem_filter, List.mem_range, beq_iff_eq]

theorem upstreamOrder_mem {n : Nat} {recv : Nat → Nat}
    (hT : Terminating n recv) {v : Nat} :
    v ∈ upstreamOrder n recv ↔ v < n := by
  unfold upstreamOrder
  rw [List.mem_flatMap]
  constructor
  · rintro ⟨d, _, hv⟩
    exact (mem_depth_level.mp hv).1
  · intro hv
    refine ⟨depthOf n recv v, ?_, ?_⟩
    · rw [List.mem_reverse, List.mem_range]
      exact Nat.lt_succ_of_lt (depthOf_lt hT hv)
    · exact mem_depth_level.mpr ⟨hv, depthOf_spec hT hv⟩

theorem upstreamOrder_nodup {n : Nat} (recv : Nat → Nat) :
    (upstreamOrder n recv).Nodup := by
  unfold upstreamOrder
  rw [List.flatMap_def, List.nodup_join]
  constructor
  · intro l hl
    rw [List.mem_map] at hl
    rcases hl with ⟨d, _, rfl⟩
    exact (List.nodup_range n).filter _
  · rw [List.pairwise_map]
    have hnd : ((List.range (n + 1)).reverse).Pairwise (· ≠ ·) :=
      (List.nodup_reverse.mpr (List.nodup_range (n + 1)))
    refine hnd.imp ?_
    intro d1 d2 hne
    intro u hu1 hu2
    rw [mem_depth_level] at hu1 hu2
    exact hne (Option.some.inj (hu1.2.symm.trans hu2.2))

theorem upstreamOrder_pairwise {n : Nat} {recv : Nat → Nat}
    (hT : Terminating n recv) (hR : ∀ v, v < n → recv v < n) :
    (upstreamOrder n recv).Pairwise (fun a b => recv b ≠ a) := by
  unfold upstreamOrder
  rw [List.flatMap_def, List.pairwise_join]
  constructor
  · intro l hl
    rw [List.mem_map] at hl
    rcases hl with ⟨d, _, rfl⟩
    have hlt : ((List.range n).filter
        (fun v => chainDepth recv n v == some d)).Pairwise (· < ·) :=
      (List.pairwise_lt_range n).sublist (List.filter_sublist _)
    refine hlt.imp_of_mem ?_
    intro a b ha hb hab
    rw [mem_depth_level] at ha hb
    intro hrba
    by_cases hbb : recv b = b
    · rw [hbb] at hrba
      subst hrba
      exact Nat.lt_irrefl _ hab
    · have hda : depthOf n recv a = d := by rw [depthOf, ha.2]; rfl
      have hdb : depthOf n recv b = d := by rw [depthOf, hb.2]; rfl
      have := depthOf_step hT hR hb.1 hbb
      rw [hrba] at this
      omega
  · rw [List.pairwise_map]
    have hgt : ((List.range (n + 1)).reverse).Pairwise (fun a b => b < a) := by
      rw [List.pairwise_reverse]
      exact List.pairwise_lt_range (n + 1)
    refine hgt.imp_of_mem ?_
    intro d1 d2 _ _ hlt
    intro a ha b hb
    rw [mem_depth_level] at ha hb
    intro hrba
    have hda : depthOf n recv a = d1 := by rw [depthOf, ha.2]; rfl
    have hdb : depthOf n recv b = d2 := by rw [depthOf, hb.2]; rfl
    by_cases hbb : recv b = b
    · rw [hbb] at hrba
      subst hrba
      omega
    · have := depthOf_step hT hR hb.1 hbb
      rw [hrba] at this
      omega

/-- Master theorem of the Accumulator: after the topological walk, every
node's accumulated value is exactly the sum of the input quantity over its
drainage sub-tree. -/
theorem accumulate_eq_subtreeSum {n : Nat} {recv : Nat → Nat}
    (input : Nat → ℚ) (hT : Terminating n recv)
    (hR : ∀ v, v < n → recv v < n) {v : Nat} (hv : v < n) :
    valAt (accumulate n recv input) v = subtreeSum n recv input v := by
  unfold accumulate
  refine accumulate_go hT hR (upstreamOrder n recv) [] (List.replicate n 0)
    ?_ ?_ ?_ ?_ ?_ ?_ v hv
  · intro u
    rw [List.nil_append]
    exact upstreamOrder_mem hT
  · rw [List.nil_append]
    exact upstreamOrder_nodup recv
  · rw [List.nil_append]
    exact upstreamOrder_pairwise hT hR
  · exact List.length_replicate n 0
  · intro u hu
    exact absurd hu (List.not_mem_nil u)
  · intro u _ _
    rw [valAt_replicate_zero]
    rw [show (donorSet n recv u).filter (fun d => d ∈ ([] : List Nat)) = ∅ by
      apply Finset.filter_false_of_mem
      intro x _
      exact List.not_mem_nil x]
    rw [Finset.sum_empty]

/-- The sink at the end of a node's receiver chain. -/
def sinkOf (n : Nat) (recv : Nat → Nat) (u : Nat) : Nat :=
  iterRecv recv (depthOf n recv u) u

theorem sinkOf_is_sink {n : Nat} {recv : Nat → Nat} (hT : Terminating n recv)
    (hR : ∀ v, v < n → recv v < n) {u : Nat} (hu : u < n) :
    recv (sinkOf n recv u) = sinkOf n recv u :=
  iterRecv_end_sink hT hR hu

theorem sinkOf_lt {n : Nat} {recv : Nat → Nat}
    (hR : ∀ v, v < n → recv v < n) {u : Nat} (hu : u < n) :
    sinkOf n recv u < n :=
  iterRecv_lt hR _ hu

theorem drainsTo_sinkOf {n : Nat} {recv : Nat → Nat} (hT : Terminating n recv)
    {u : Nat} (hu : u < n) : drainsTo n recv u (sinkOf n recv u) = true :=
  drainsTo_iff.mpr ⟨depthOf n recv u, Nat.le_of_lt (depthOf_lt hT hu), rfl⟩

theorem sinkOf_unique {n : Nat} {recv : Nat → Nat} (hT : Terminating n recv)
    (hR : ∀ v, v < n → recv v < n) {u s : Nat} (hu : u < n)
    (hdr : drainsTo n recv u s = true) (hs : recv s = s) :
    s = sinkOf n recv u := by
  rcases (drainsTo_iff_le_depth hT hR hu).mp hdr with ⟨k, hk, hi⟩
  have h1 : iterRecv recv (depthOf n recv u) u =
      iterRecv recv (depthOf n recv u - k) (iterRecv recv k u) := by
    rw [← iterRecv_add]
    congr 1
    omega
  rw [sinkOf, h1, hi, iterRecv_sink hs]

/-- Conservation: summing the sub-tree sums over all sinks counts every
node's input exactly once. -/
theorem sum_subtree_sinks {n : Nat} {recv : Nat → Nat} (input : Nat → ℚ)
    (hT : Terminating n recv) (hR : ∀ v, v < n → recv v < n) :
    ∑ s ∈ (Finset.range n).filter (fun s => recv s = s),
        subtreeSum n recv input s =
      ∑ v ∈ Finset.range n, input v := by
  classical
  have hstep : ∀ s ∈ (Finset.range n).filter (fun s => recv s = s),
      subtreeSum n recv input s =
        ∑ u ∈ (Finset.range n).filter (fun u => sinkOf n recv u = s),
          input u := by
    intro s hsmem
    rw [Finset.mem_filter, Finset.mem_range] at hsmem
    rw [subtreeSum_eq_filter]
    apply Finset.sum_congr
    · ext u
      simp only [Finset.mem_filter, Finset.mem_range]
      constructor
      · rintro ⟨hun, hdr⟩
        exact ⟨hun, (sinkOf_unique hT hR hun hdr hsmem.2).symm⟩
      · rintro ⟨hun, hsk⟩
        refine ⟨hun, ?_⟩
        rw [← hsk]
        exact drainsTo_sinkOf hT hun
    · intro x _; rfl
  rw [Finset.sum_congr rfl hstep]
  apply Finset.sum_fiberwise_of_maps_to
  intro u hu
  rw [Finset.mem_range] at hu
  rw [Finset.mem_filter, Finset.mem_range]
  exact ⟨sinkOf_lt hR hu, sinkOf_is_sink hT hR hu⟩

/-! ## Structural lemmas of the depression handler -/

theorem popMin_none {l : List Entry} : popMin l = none ↔ l = [] := by
  cases l with
  | nil => simp [popMin]
  | cons a as =>
      simp only [popMin]
      cases hp : popMin as with
      | none => simp
      | some p =>
          rcases p with ⟨f, r⟩
          by_cases hc : f.cost < a.cost <;> simp [hc]

theorem popMin_perm :
    ∀ {l : List Entry} {e : Entry} {rest : List Entry},
      popMin l = some (e, rest) → l.Perm (e :: rest)
  | [], _, _, h => by simp [popMin] at h
  | a :: as, e, rest, h => by
      rw [popMin] at h
      cases hp : popMin as with
      | none =>
          rw [hp] at h
          simp only [Option.some.injEq, Prod.mk.injEq] at h
          have ha : as = [] := popMin_none.mp hp
          subst ha
          obtain ⟨rfl, rfl⟩ := h
          exact List.Perm.refl _
      | some p =>
          rcases p with ⟨f, rest2⟩
          rw [hp] at h
          simp only at h
          by_cases hc : f.cost < a.cost
          · rw [if_pos hc] at h
            simp only [Option.some.injEq, Prod.mk.injEq] at h
            have hperm : as.Perm (f :: rest2) := popMin_perm hp
            obtain ⟨rfl, rfl⟩ := h
            have h1 : (a :: as).Perm (a :: f :: rest2) := hperm.cons a
            have h2 : (a :: f :: rest2).Perm (f :: a :: rest2) :=
              List.Perm.swap f a rest2
            exact h1.trans h2
          · rw [if_neg hc] at h
            simp only [Option.some.injEq, Prod.mk.injEq] at h
            obtain ⟨rfl, rfl⟩ := h
            exact List.Perm.refl _

theorem popMin_mem {l : List Entry} {e : Entry} {rest : List Entry}
    (h : popMin l = some (e, rest)) : e ∈ l :=
  (popMin_perm h).mem_iff.mpr (List.mem_cons_self e rest)

theorem popMin_rest_subset {l : List Entry} {e : Entry} {rest : List Entry}
    (h : popMin l = some (e, rest)) : ∀ x ∈ rest, x ∈ l := by
  intro x hx
  exact (popMin_perm h).mem_iff.mpr (List.mem_cons_of_mem e hx)

theorem popMin_min :
    ∀ {l : List Entry} {e : Entry} {rest : List Entry},
      popMin l = some (e, rest) → ∀ x ∈ l, e.cost ≤ x.cost
  | [], _, _, h => by simp [popMin] at h
  | a :: as, e, rest, h => by
      rw [popMin] at h
      cases hp : popMin as with
      | none =>
          rw [hp] at h
          simp only [Option.some.injEq, Prod.mk.injEq] at h
          have ha : as = [] := popMin_none.mp hp
          subst ha
          obtain ⟨rfl, rfl⟩ := h
          intro x hx
          rcases List.mem_singleton.mp hx with rfl
          exact le_refl _
      | some p =>
          rcases p with ⟨f, rest2⟩
          rw [hp] at h
          simp only at h
          by_cases hc : f.cost < a.cost
          · rw [if_pos hc] at h
            simp only [Option.some.injEq, Prod.mk.injEq] at h
            obtain ⟨rfl, rfl⟩ := h
            intro x hx
            rcases List.mem_cons.mp hx with rfl | hx2
            · exact le_of_lt hc
            · exact popMin_min hp x hx2
          · rw [if_neg hc] at h
            simp only [Option.some.injEq, Prod.mk.injEq] at h
            obtain ⟨rfl, rfl⟩ := h
            intro x hx
            rcases List.mem_cons.mp hx with rfl | hx2
            · exact le_refl _
            · exact le_trans (not_lt.mp hc) (popMin_min hp x hx2)

/-! ## Paths and barrier costs -/

/-- A valid flow path: a nonempty sequence of non-CLOSED nodes in which each
node is a neighbor of its predecessor. -/
def ValidPath (m : Mesh) (p : List Nat) : Prop :=
  p ≠ [] ∧ (∀ v ∈ p, m.statusOf v ≠ .closed) ∧
    List.Chain' (fun u v => v ∈ (m.nbrs u).map Prod.fst) p

/-- Maximum elevation along a path (0 for the empty path). -/
def pathMax (z : List ℚ) : List Nat → ℚ
  | [] => 0
  | v :: rest => rest.foldl (fun acc u => max acc (valAt z u)) (valAt z v)

theorem foldl_max_append (z : List ℚ) (l : List Nat) (a : ℚ) (b : Nat) :
    (l ++ [b]).foldl (fun acc u => max acc (valAt z u)) a =
      max (l.foldl (fun acc u => max acc (valAt z u)) a) (valAt z b) := by
  rw [List.foldl_append]
  rfl

theorem pathMax_append_singleton (z : List ℚ) {p : List Nat} (hp : p ≠ [])
    (b : Nat) : pathMax z (p ++ [b]) = max (pathMax z p) (valAt z b) := by
  cases p with
  | nil => exact absurd rfl hp
  | cons v rest =>
      show pathMax z (v :: (rest ++ [b])) = _
      unfold pathMax
      exact foldl_max_append z rest (valAt z v) b

/-- Follow the via pointers of the search forest backward from a node,
producing the path along which the search first reached it. -/
def viaChain (R : List Entry) : Nat → Nat → List Nat
  | 0, v => [v]
  | fuel + 1, v =>
    match lookupEntry R v with
    | some e => if e.via = v then [v] else viaChain R fuel e.via ++ [v]
    | none => [v]

/-- The rerouted escape path of a node: the via-chain of the search forest. -/
def reroutedPath (m : Mesh) (z : List ℚ) (v : Nat) : List Nat :=
  viaChain (pfsReach m z) (pfsReach m z).length v

theorem lookupEntry_of_mem :
    ∀ {R : List Entry}, (R.map Entry.node).Nodup → ∀ {e : Entry}, e ∈ R →
      lookupEntry R e.node = some e
  | [], _, e, he => absurd he (List.not_mem_nil e)
  | a :: rest, hnd, e, he => by
      rw [List.map_cons, List.nodup_cons] at hnd
      rcases List.mem_cons.mp he with rfl | hmem
      · unfold lookupEntry
        rw [List.find?_cons_of_pos]
        exact beq_self_eq_true e.node
      · have hane : (a.node == e.node) = false := by
          rw [beq_eq_false_iff_ne]
          intro hcon
          exact hnd.1 (hcon ▸ List.mem_map_of_mem Entry.node hmem)
        unfold lookupEntry
        rw [List.find?_cons_of_neg _ (by simp [hane])]
        exact lookupEntry_of_mem hnd.2 hmem

theorem entry_unique {R : List Entry} (hnd : (R.map Entry.node).Nodup)
    {e1 e2 : Entry} (h1 : e1 ∈ R) (h2 : e2 ∈ R) (hn : e1.node = e2.node) :
    e1 = e2 := by
  have l1 := lookupEntry_of_mem hnd h1
  have l2 := lookupEntry_of_mem hnd h2
  rw [hn] at l1
  rw [l1] at l2
  exact Option.some.inj l2

theorem lookupEntry_node {R : List Entry} {v : Nat} {e : Entry}
    (h : lookupEntry R v = some e) : e.node = v := by
  have := List.find?_some h
  rwa [beq_iff_eq] at this

theorem lookupEntry_mem {R : List Entry} {v : Nat} {e : Entry}
    (h : lookupEntry R v = some e) : e ∈ R :=
  List.mem_of_find?_eq_some h

/-- An entry that seeds the search at an open-boundary node. -/
def SeedEntry (m : Mesh) (z : List ℚ) (e : Entry) : Prop :=
  e.via = e.node ∧ m.statusOf e.node = .fixedValue ∧ e.cost = valAt z e.node

/-- An entry explained by a parent among the given entries. -/
def ParentIn (m : Mesh) (z : List ℚ) (l : List Entry) (e : Entry) : Prop :=
  ∃ f ∈ l, f.node = e.via ∧ e.node ∈ (m.nbrs f.node).map Prod.fst ∧
    e.cost = max f.cost (valAt z e.node)

/-- Invariant of the priority-first search. -/
structure PfsInv (m : Mesh) (z : List ℚ) (visited frontier : List Entry) :
    Prop where
  visited_not_closed : ∀ e ∈ visited, m.statusOf e.node ≠ .closed
  visited_nodup : (visited.map Entry.node).Nodup
  visited_chain : ∀ i, (hi : i < visited.length) →
    SeedEntry m z visited[i] ∨ ParentIn m z (visited.take i) visited[i]
  frontier_ok : ∀ e ∈ frontier,
    m.statusOf e.node ≠ .closed ∧ (SeedEntry m z e ∨ ParentIn m z visited e)
  mono : ∀ ev ∈ visited, ∀ ef ∈ frontier, ev.cost ≤ ef.cost
  relax : ∀ ev ∈ visited, ∀ p ∈ m.nbrs ev.node, m.statusOf p.1 ≠ .closed →
    (∃ e ∈ visited, e.node = p.1 ∧ e.cost ≤ max ev.cost (valAt z p.1)) ∨
    (∃ e ∈ frontier, e.node = p.1 ∧ e.cost ≤ max ev.cost (valAt z p.1))
  seeds_ok : ∀ v, m.statusOf v = .fixedValue →
    (∃ e ∈ visited, e.node = v ∧ e.cost ≤ valAt z v) ∨
    (∃ e ∈ frontier, e.node = v ∧ e.cost ≤ valAt z v)

theorem mem_pushEntries {m : Mesh} {z : List ℚ} {vis : List Entry} {u : Nat}
    {c : ℚ} {x : Entry} :
    x ∈ pushEntries m z vis u c ↔
      ∃ p ∈ m.nbrs u, m.statusOf p.1 ≠ .closed ∧
        p.1 ∉ vis.map Entry.node ∧ x = ⟨p.1, u, max c (valAt z p.1)⟩ := by
  unfold pushEntries
  rw [List.mem_map]
  constructor
  · rintro ⟨p, hp, rfl⟩
    rw [List.mem_filter] at hp
    have hcond := hp.2
    rw [Bool.and_eq_true, bne_iff_ne, Bool.not_eq_true'] at hcond
    refine ⟨p, hp.1, hcond.1, ?_, rfl⟩
    intro hmem
    have : (vis.map Entry.node).contains p.1 = true := by
      simp [List.contains, hmem]
    rw [this] at hcond
    exact absurd hcond.2 (by simp)
  · rintro ⟨p, hp, hnc, hnm, rfl⟩
    refine ⟨p, ?_, rfl⟩
    rw [List.mem_filter]
    refine ⟨hp, ?_⟩
    rw [Bool.and_eq_true, bne_iff_ne, Bool.not_eq_true']
    refine ⟨hnc, ?_⟩
    simp only [List.contains, List.elem_eq_mem, decide_eq_false_iff_not]
    · exact hnm

theorem pfs_inv_discard {m : Mesh} {z : List ℚ}
    {visited frontier rest : List Entry} {e : Entry}
    (inv : PfsInv m z visited frontier)
    (hpop : popMin frontier = some (e, rest))
    (hvis : e.node ∈ visited.map Entry.node) :
    PfsInv m z visited rest := by
  have hperm := popMin_perm hpop
  have hrest_sub : ∀ x ∈ rest, x ∈ frontier := popMin_rest_subset hpop
  refine ⟨inv.visited_not_closed, inv.visited_nodup, inv.visited_chain,
    ?_, ?_, ?_, ?_⟩
  · intro x hx
    exact inv.frontier_ok x (hrest_sub x hx)
  · intro ev hev ef hef
    exact inv.mono ev hev ef (hrest_sub ef hef)
  · intro ev hev p hp hpnc
    rcases inv.relax ev hev p hp hpnc with h | ⟨x, hx, hxn, hxc⟩
    · exact Or.inl h
    · rcases List.mem_cons.mp ((hperm.mem_iff).mp hx) with hxe | hxr
      · subst hxe
        rcases List.mem_map.mp hvis with ⟨f, hf, hfn⟩
        refine Or.inl ⟨f, hf, by rw [hfn, hxn], ?_⟩
        exact le_trans (inv.mono f hf x hx) hxc
      · exact Or.inr ⟨x, hxr, hxn, hxc⟩
  · intro v hv
    rcases inv.seeds_ok v hv with h | ⟨x, hx, hxn, hxc⟩
    · exact Or.inl h
    · rcases List.mem_cons.mp ((hperm.mem_iff).mp hx) with hxe | hxr
      · subst hxe
        rcases List.mem_map.mp hvis with ⟨f, hf, hfn⟩
        refine Or.inl ⟨f, hf, by rw [hfn, hxn], ?_⟩
        exact le_trans (inv.mono f hf x hx) hxc
      · exact Or.inr ⟨x, hxr, hxn, hxc⟩

theorem pfs_inv_visit {m : Mesh} {z : List ℚ}
    {visited frontier rest : List Entry} {e : Entry}
    (inv : PfsInv m z visited frontier)
    (hpop : popMin frontier = some (e, rest))
    (hnv : e.node ∉ visited.map Entry.node) :
    PfsInv m z (visited ++ [e])
      (rest ++ pushEntries m z (visited ++ [e]) e.node e.cost) := by
  have hef : e ∈ frontier := popMin_mem hpop
  have hperm := popMin_perm hpop
  have hrest_sub : ∀ x ∈ rest, x ∈ frontier := popMin_rest_subset hpop
  have hemin : ∀ x ∈ frontier, e.cost ≤ x.cost := popMin_min hpop
  have heok := inv.frontier_ok e hef
  have hpush : ∀ x ∈ pushEntries m z (visited ++ [e]) e.node e.cost,
      m.statusOf x.node ≠ .closed ∧ ParentIn m z (visited ++ [e]) x := by
    intro x hx
    rcases mem_pushEntries.mp hx with ⟨p, hp, hnc, hnm, rfl⟩
    refine ⟨hnc, e, List.mem_append_right _ (List.mem_singleton_self e),
      rfl, List.mem_map_of_mem Prod.fst hp, rfl⟩
  refine ⟨?_, ?_, ?_, ?_, ?_, ?_, ?_⟩
  · intro x hx
    rcases List.mem_append.mp hx with h | h
    · exact inv.visited_not_closed x h
    · rcases List.mem_singleton.mp h with rfl
      exact heok.1
  · rw [List.map_append, List.nodup_append]
    refine ⟨inv.visited_nodup, List.nodup_singleton _, ?_⟩
    intro a ha hb
    rcases List.mem_singleton.mp hb with rfl
    exact hnv ha
  · intro i hi
    rw [List.length_append, List.length_singleton] at hi
    rcases Nat.lt_or_ge i visited.length with hlt | hge
    · rw [List.getElem_append_left hlt,
        List.take_append_of_le_length (Nat.le_of_lt hlt)]
      exact inv.visited_chain i hlt
    · have hieq : i = visited.length := by omega
      subst hieq
      rw [show (visited ++ [e])[visited.length] = e from
        List.getElem_concat_length _ _ _ rfl (by simp), List.take_left]
      rcases heok.2 with h | h
      · exact Or.inl h
      · exact Or.inr h
  · intro x hx
    rcases List.mem_append.mp hx with h | h
    · have hold := inv.frontier_ok x (hrest_sub x h)
      refine ⟨hold.1, ?_⟩
      rcases hold.2 with h2 | ⟨f, hf, hfs⟩
      · exact Or.inl h2
      · exact Or.inr ⟨f, List.mem_append_left _ hf, hfs⟩
    · have := hpush x h
      exact ⟨this.1, Or.inr this.2⟩
  · intro ev hev ef hef2
    rcases List.mem_append.mp hev with hv | hv
    · rcases List.mem_append.mp hef2 with hf | hf
      · exact inv.mono ev hv ef (hrest_sub ef hf)
      · rcases mem_pushEntries.mp hf with ⟨p, _, _, _, rfl⟩
        exact le_trans (inv.mono ev hv e hef) (le_max_left _ _)
    · rcases List.mem_singleton.mp hv with rfl
      rcases List.mem_append.mp hef2 with hf | hf
      · exact hemin ef (hrest_sub ef hf)
      · rcases mem_pushEntries.mp hf with ⟨p, _, _, _, rfl⟩
        exact le_max_left _ _
  · intro ev hev p hp hpnc
    rcases List.mem_append.mp hev with hv | hv
    · rcases inv.relax ev hv p hp hpnc with ⟨x, hx, hxp⟩ | ⟨x, hx, hxn, hxc⟩
      · exact Or.inl ⟨x, List.mem_append_left _ hx, hxp⟩
      · rcases List.mem_cons.mp ((hperm.mem_iff).mp hx) with rfl | hxr
        · exact Or.inl ⟨x, List.mem_append_right _ (List.mem_singleton_self x),
            hxn, hxc⟩
        · exact Or.inr ⟨x, List.mem_append_left _ hxr, hxn, hxc⟩
    · rcases List.mem_singleton.mp hv with rfl
      by_cases hmem : p.1 ∈ (visited ++ [ev]).map Entry.node
      · rcases List.mem_map.mp hmem with ⟨f, hf, hfn⟩
        refine Or.inl ⟨f, hf, hfn, ?_⟩
        rcases List.mem_append.mp hf with h | h
        · exact le_trans (inv.mono f h ev hef) (le_max_left _ _)
        · rcases List.mem_singleton.mp h with rfl
          exact le_max_left _ _
      · refine Or.inr ⟨⟨p.1, ev.node, max ev.cost (valAt z p.1)⟩, ?_, rfl, ?_⟩
        · refine List.mem_append_right _ ?_
          exact mem_pushEntries.mpr ⟨p, hp, hpnc, hmem, rfl⟩
        · exact le_refl _
  · intro v hv
    rcases inv.seeds_ok v hv with ⟨x, hx, hxp⟩ | ⟨x, hx, hxn, hxc⟩
    · exact Or.inl ⟨x, List.mem_append_left _ hx, hxp⟩
    · rcases List.mem_cons.mp ((hperm.mem_iff).mp hx) with rfl | hxr
      · exact Or.inl ⟨x, List.mem_append_right _ (List.mem_singleton_self x),
          hxn, hxc⟩
      · exact Or.inr ⟨x, List.mem_append_left _ hxr, hxn, hxc⟩

theorem contains_node_iff {l : List Nat} {a : Nat} :
    l.contains a = true ↔ a ∈ l := by
  simp [List.contains]

theorem pfs_inv_run {m : Mesh} {z : List ℚ} :
    ∀ (fuel : Nat) (visited frontier : List Entry),
      PfsInv m z visited frontier →
      (pfsAux m z fuel visited frontier).2 = [] →
      PfsInv m z (pfsAux m z fuel visited frontier).1 []
  | 0, visited, frontier, inv, hemp => by
      simp only [pfsAux] at hemp ⊢
      exact hemp ▸ inv
  | fuel + 1, visited, frontier, inv, hemp => by
      cases hpop : popMin frontier with
      | none =>
          rw [pfsAux, hpop] at hemp ⊢
          have hfr : frontier = [] := popMin_none.mp hpop
          subst hfr
          exact inv
      | some pr =>
          rcases pr with ⟨e, rest⟩
          rw [pfsAux, hpop] at hemp ⊢
          simp only at hemp ⊢
          by_cases hc : (visited.map Entry.node).contains e.node = true
          · rw [if_pos hc] at hemp ⊢
            exact pfs_inv_run fuel visited rest
              (pfs_inv_discard inv hpop (contains_node_iff.mp hc)) hemp
          · rw [if_neg hc] at hemp ⊢
            have hnv : e.node ∉ visited.map Entry.node := by
              intro hmem
              exact hc (contains_node_iff.mpr hmem)
            exact pfs_inv_run fuel _ _ (pfs_inv_visit inv hpop hnv) hemp

theorem pfs_inv_init (m : Mesh) (z : List ℚ) :
    PfsInv m z [] (seedEntries m z) := by
  refine ⟨?_, ?_, ?_, ?_, ?_, ?_, ?_⟩
  · intro e he; exact absurd he (List.not_mem_nil e)
  · simp
  · intro i hi; simp at hi
  · intro e he
    unfold seedEntries at he
    rcases List.mem_map.mp he with ⟨v, hv, rfl⟩
    rw [List.mem_filter, beq_iff_eq] at hv
    constructor
    · show m.statusOf v ≠ .closed
      rw [hv.2]
      intro hcon
      cases hcon
    · exact Or.inl ⟨rfl, hv.2, rfl⟩
  · intro ev hev; exact absurd hev (List.not_mem_nil ev)
  · intro ev hev; exact absurd hev (List.not_mem_nil ev)
  · intro v hv
    refine Or.inr ⟨⟨v, v, valAt z v⟩, ?_, rfl, le_refl _⟩
    unfold seedEntries
    refine List.mem_map_of_mem _ ?_
    rw [List.mem_filter, List.mem_range, beq_iff_eq]
    refine ⟨?_, hv⟩
    by_contra hge
    rw [statusOf_of_ge m hge] at hv
    cases hv

/-- Remaining work bound of the search: total degree of unvisited nodes. -/
def unvisitedPotential (m : Mesh) (visited : List Entry) : Nat :=
  ∑ v ∈ (Finset.range m.numNodes).filter
      (fun v => v ∉ visited.map Entry.node), (m.nbrs v).length

theorem potential_visit {m : Mesh} {visited : List Entry} {e : Entry}
    (hlt : e.node < m.numNodes) (hnv : e.node ∉ visited.map Entry.node) :
    unvisitedPotential m (visited ++ [e]) + (m.nbrs e.node).length =
      unvisitedPotential m visited := by
  classical
  unfold unvisitedPotential
  have hset : (Finset.range m.numNodes).filter
      (fun v => v ∉ (visited ++ [e]).map Entry.node) =
      ((Finset.range m.numNodes).filter
        (fun v => v ∉ visited.map Entry.node)).erase e.node := by
    ext v
    simp only [Finset.mem_erase, Finset.mem_filter, Finset.mem_range,
      List.map_append, List.mem_append, List.map_cons, List.map_nil,
      List.mem_singleton]
    constructor
    · rintro ⟨hv1, hv2⟩
      push_neg at hv2
      exact ⟨hv2.2, hv1, hv2.1⟩
    · rintro ⟨hne, hv1, hv2⟩
      refine ⟨hv1, ?_⟩
      push_neg
      exact ⟨hv2, hne⟩
  rw [hset]
  apply Finset.sum_erase_add
  rw [Finset.mem_filter, Finset.mem_range]
  exact ⟨hlt, hnv⟩

theorem potential_skip {m : Mesh} {visited : List Entry} {e : Entry}
    (hge : ¬ e.node < m.numNodes) :
    unvisitedPotential m (visited ++ [e]) = unvisitedPotential m visited := by
  unfold unvisitedPotential
  apply Finset.sum_congr
  · apply Finset.filter_congr
    intro v hv
    rw [Finset.mem_range] at hv
    simp only [List.map_append, List.mem_append, List.map_cons, List.map_nil,
      List.mem_singleton, eq_iff_iff]
    constructor
    · intro h1 h2
      exact h1 (Or.inl h2)
    · intro h1 h2
      rcases h2 with h2 | h2
      · exact h1 h2
      · subst h2; omega
  · intro x _; rfl

theorem pushEntries_length_le (m : Mesh) (z : List ℚ) (vis : List Entry)
    (u : Nat) (c : ℚ) :
    (pushEntries m z vis u c).length ≤ (m.nbrs u).length := by
  unfold pushEntries
  rw [List.length_map]
  exact List.length_filter_le _ _

theorem nbrs_of_ge {m : Mesh} {v : Nat} (h : ¬ v < m.numNodes) :
    m.nbrs v = [] := by
  unfold Mesh.nbrs
  rw [if_neg h]

theorem pfsAux_completes {m : Mesh} {z : List ℚ} :
    ∀ (fuel : Nat) (visited frontier : List Entry),
      frontier.length + unvisitedPotential m visited < fuel →
      (pfsAux m z fuel visited frontier).2 = []
  | 0, visited, frontier, h => by omega
  | fuel + 1, visited, frontier, h => by
      rw [pfsAux]
      cases hpop : popMin frontier with
      | none => rfl
      | some pr =>
          rcases pr with ⟨e, rest⟩
          simp only
          have hlen : frontier.length = rest.length + 1 := by
            rw [(popMin_perm hpop).length_eq]
            rfl
          by_cases hc : (visited.map Entry.node).contains e.node = true
          · rw [if_pos hc]
            exact pfsAux_completes fuel visited rest (by omega)
          · rw [if_neg hc]
            have hnv : e.node ∉ visited.map Entry.node := by
              intro hmem
              exact hc (contains_node_iff.mpr hmem)
            by_cases hn : e.node < m.numNodes
            · have hdrop := potential_visit (m := m) hn hnv
              have hpl := pushEntries_length_le m z (visited ++ [e]) e.node e.cost
              apply pfsAux_completes fuel
              rw [List.length_append]
              omega
            · have hsame := @potential_skip m visited e hn
              have hnil : pushEntries m z (visited ++ [e]) e.node e.cost = [] := by
                unfold pushEntries
                rw [nbrs_of_ge hn]
                rfl
              apply pfsAux_completes fuel
              rw [hnil, List.append_nil, hsame]
              omega

theorem list_range_map_sum (f : Nat → Nat) :
    ∀ k, ((List.range k).map f).sum = ∑ v ∈ Finset.range k, f v
  | 0 => rfl
  | k + 1 => by
      rw [List.range_succ, List.map_append, List.sum_append,
        Finset.sum_range_succ, list_range_map_sum f k]
      simp

/-- The completed search satisfies the invariant with an empty frontier. -/
theorem pfsReach_inv (m : Mesh) (z : List ℚ) :
    PfsInv m z (pfsReach m z) [] := by
  have hcomp : (pfsAux m z (pfsFuel m) [] (seedEntries m z)).2 = [] := by
    apply pfsAux_completes
    have h1 : (seedEntries m z).length ≤ m.numNodes := by
      unfold seedEntries
      rw [List.length_map]
      exact le_trans (List.length_filter_le _ _)
        (le_of_eq (List.length_range _))
    have h2 : unvisitedPotential m [] =
        ((List.range m.numNodes).map (fun v => (m.nbrs v).length)).sum := by
      unfold unvisitedPotential
      rw [list_range_map_sum]
      apply Finset.sum_congr
      · apply Finset.filter_true_of_mem
        intro x _
        simp
      · intro x _; rfl
    unfold pfsFuel
    omega
  exact pfs_inv_run _ _ _ (pfs_inv_init m z) hcomp

/-- Soundness of the search forest: the via-chain of each visited entry is a
valid path from an open-boundary node to the entry's node whose maximum
elevation is exactly the entry's cost. -/
theorem reach_sound {m : Mesh} {z : List ℚ} {R : List Entry}
    (hnc : ∀ e ∈ R, m.statusOf e.node ≠ .closed)
    (hnd : (R.map Entry.node).Nodup)
    (hchain : ∀ i, ∀ (hi : i < R.length),
      SeedEntry m z R[i] ∨ ParentIn m z (R.take i) R[i]) :
    ∀ i, ∀ (hi : i < R.length), ∀ fuel, i < fuel →
      ValidPath m (viaChain R fuel R[i].node) ∧
      (∃ b, (viaChain R fuel R[i].node).head? = some b ∧
        m.statusOf b = .fixedValue) ∧
      (viaChain R fuel R[i].node).getLast? = some R[i].node ∧
      pathMax z (viaChain R fuel R[i].node) = R[i].cost := by
  intro i
  induction i using Nat.strong_induction_on with
  | _ i IH =>
    intro hi fuel hfuel
    have hlook : lookupEntry R R[i].node = some R[i] :=
      lookupEntry_of_mem hnd (List.getElem_mem hi)
    cases fuel with
    | zero => omega
    | succ f =>
        rw [viaChain, hlook]
        simp only
        rcases hchain i hi with ⟨hvia, hopen, hcost⟩ |
          ⟨g, hgpre, hgnode, hadj, hcost⟩
        · rw [if_pos hvia]
          refine ⟨⟨by simp, ?_, List.chain'_singleton _⟩, ?_, ?_, ?_⟩
          · intro v hv
            rcases List.mem_singleton.mp hv with rfl
            rw [hopen]
            intro hcon
            cases hcon
          · exact ⟨R[i].node, rfl, hopen⟩
          · rfl
          · rw [hcost]
            rfl
        · have htl : (R.take i).length = i := by
            rw [List.length_take]
            omega
          rcases List.mem_iff_getElem.mp hgpre with ⟨j, hj, hgj⟩
          have hji : j < i := by omega
          have hjR : j < R.length := by omega
          have hgR : R[j] = g := by
            rw [← hgj]
            exact (List.getElem_take _).symm
          have hne : ¬ R[i].via = R[i].node := by
            intro hcon
            have hnodes : R[j].node = R[i].node := by
              rw [hgR, hgnode, hcon]
            have hmj : j < (R.map Entry.node).length := by
              rw [List.length_map]
              omega
            have hmi : i < (R.map Entry.node).length := by
              rw [List.length_map]
              omega
            have hmap : (R.map Entry.node)[j] = (R.map Entry.node)[i] := by
              rw [List.getElem_map, List.getElem_map]
              exact hnodes
            have := (List.Nodup.getElem_inj_iff hnd).mp hmap
            omega
          rw [if_neg hne]
          have hvia_j : R[i].via = R[j].node := by
            rw [hgR, hgnode]
          have hIH := IH j hji hjR f (by omega)
          rcases hIH with ⟨⟨hsub_ne, hsub_nc, hsub_chain⟩, ⟨b, hb, hbopen⟩,
            hsub_last, hsub_max⟩
          rw [hvia_j]
          refine ⟨⟨by simp, ?_, ?_⟩, ?_, ?_, ?_⟩
          · intro v hv
            rcases List.mem_append.mp hv with h | h
            · exact hsub_nc v h
            · rcases List.mem_singleton.mp h with rfl
              exact hnc R[i] (List.getElem_mem hi)
          · rw [List.chain'_append]
            refine ⟨hsub_chain, List.chain'_singleton _, ?_⟩
            intro x hx y hy
            rw [hsub_last, Option.mem_def] at hx
            have hx2 : x = R[j].node := (Option.some.inj hx).symm
            rw [List.head?_cons, Option.mem_def] at hy
            have hy2 : y = R[i].node := (Option.some.inj hy).symm
            subst hx2
            subst hy2
            rw [hgR]
            exact hadj
          · refine ⟨b, ?_, hbopen⟩
            cases hchn : viaChain R f R[j].node with
            | nil => rw [hchn] at hb; cases hb
            | cons c cs =>
                rw [hchn] at hb
                rw [List.head?_cons] at hb
                rw [List.cons_append, List.head?_cons]
                exact hb
          · exact List.getLast?_concat _
          · rw [pathMax_append_singleton z hsub_ne, hsub_max, hgR, ← hcost]

theorem reach_optimal_walk {m : Mesh} {z : List ℚ} {R : List Entry}
    (hrelax : ∀ ev ∈ R, ∀ p ∈ m.nbrs ev.node, m.statusOf p.1 ≠ .closed →
      ∃ e ∈ R, e.node = p.1 ∧ e.cost ≤ max ev.cost (valAt z p.1)) :
    ∀ (p : List Nat) (cur : Nat) (bound : ℚ),
      (∃ e ∈ R, e.node = cur ∧ e.cost ≤ bound) →
      List.Chain' (fun u v => v ∈ (m.nbrs u).map Prod.fst) (cur :: p) →
      (∀ v ∈ p, m.statusOf v ≠ .closed) →
      ∃ e ∈ R, (cur :: p).getLast? = some e.node ∧
        e.cost ≤ p.foldl (fun acc u => max acc (valAt z u)) bound
  | [], cur, bound, ⟨e, he, hen, hec⟩, _, _ => by
      refine ⟨e, he, ?_, hec⟩
      rw [hen]
      rfl
  | v :: p2, cur, bound, ⟨e, he, hen, hec⟩, hch, hnc => by
      rw [List.chain'_cons] at hch
      have hvnc : m.statusOf v ≠ .closed := hnc v (List.mem_cons_self v p2)
      rcases List.mem_map.mp hch.1 with ⟨q, hq, hq1⟩
      have hrel := hrelax e he q (by rw [hen]; exact hq) (by rw [hq1]; exact hvnc)
      rcases hrel with ⟨e2, he2, he2n, he2c⟩
      have hstart : ∃ e3 ∈ R, e3.node = v ∧ e3.cost ≤ max bound (valAt z v) := by
        refine ⟨e2, he2, by rw [he2n, hq1], ?_⟩
        rw [hq1] at he2c
        exact le_trans he2c (max_le_max hec (le_refl _))
      have hrec := reach_optimal_walk hrelax p2 v (max bound (valAt z v)) hstart
        hch.2 (fun u hu => hnc u (List.mem_cons_of_mem v hu))
      rcases hrec with ⟨e4, he4, he4l, he4c⟩
      refine ⟨e4, he4, ?_, he4c⟩
      rw [← he4l]
      rfl

/-- Optimality of the search: every valid path from an open-boundary node to
a reached node has maximum elevation at least the recorded cost. -/
theorem reach_optimal {m : Mesh} {z : List ℚ} {R : List Entry}
    (hrelax : ∀ ev ∈ R, ∀ p ∈ m.nbrs ev.node, m.statusOf p.1 ≠ .closed →
      ∃ e ∈ R, e.node = p.1 ∧ e.cost ≤ max ev.cost (valAt z p.1))
    (hseed : ∀ v, m.statusOf v = .fixedValue →
      ∃ e ∈ R, e.node = v ∧ e.cost ≤ valAt z v) :
    ∀ (q : List Nat), ValidPath m q →
      (∃ b, q.head? = some b ∧ m.statusOf b = .fixedValue) →
      ∃ e ∈ R, q.getLast? = some e.node ∧ e.cost ≤ pathMax z q := by
  rintro q ⟨hne, hnc, hch⟩ ⟨b, hb, hopen⟩
  cases q with
  | nil => exact absurd rfl hne
  | cons c p =>
      rw [List.head?_cons] at hb
      rcases Option.some.inj hb with rfl
      have hstart := hseed c hopen
      have := reach_optimal_walk hrelax p c (valAt z c) hstart hch
        (fun u hu => hnc u (List.mem_cons_of_mem c hu))
      rcases this with ⟨e, he, hel, hec⟩
      exact ⟨e, he, hel, hec⟩

theorem pfsReach_relax (m : Mesh) (z : List ℚ) :
    ∀ ev ∈ pfsReach m z, ∀ p ∈ m.nbrs ev.node, m.statusOf p.1 ≠ .closed →
      ∃ e ∈ pfsReach m z, e.node = p.1 ∧ e.cost ≤ max ev.cost (valAt z p.1) := by
  intro ev hev p hp hpnc
  rcases (pfsReach_inv m z).relax ev hev p hp hpnc with h | ⟨x, hx, _⟩
  · exact h
  · exact absurd hx (List.not_mem_nil x)

theorem pfsReach_seed (m : Mesh) (z : List ℚ) :
    ∀ v, m.statusOf v = .fixedValue →
      ∃ e ∈ pfsReach m z, e.node = v ∧ e.cost ≤ valAt z v := by
  intro v hv
  rcases (pfsReach_inv m z).seeds_ok v hv with h | ⟨x, hx, _⟩
  · exact h
  · exact absurd hx (List.not_mem_nil x)

/-- C3: for every unresolved pit reached by the search, the corrected
receiver is the neighbor through which the priority-first expansion first
reached it, the rerouted path is a valid path from an open-boundary node to
the pit whose maximum elevation equals the recorded barrier cost, and that
cost is minimal over all paths from any open-boundary node to the pit. -/
theorem c3_depression_handler_minimax (m : Mesh) (z : List ℚ) (p : Nat)
    (e : Entry) (hpit : isPit m z p = true)
    (hfound : lookupEntry (pfsReach m z) p = some e) :
    finalRecv m z p = e.via ∧
    (ValidPath m (reroutedPath m z p) ∧
      (∃ b, (reroutedPath m z p).head? = some b ∧
        m.statusOf b = .fixedValue) ∧
      (reroutedPath m z p).getLast? = some p ∧
      pathMax z (reroutedPath m z p) = e.cost) ∧
    (∀ q, ValidPath m q →
      (∃ b, q.head? = some b ∧ m.statusOf b = .fixedValue) →
      q.getLast? = some p → e.cost ≤ pathMax z q) := by
  have inv := pfsReach_inv m z
  have hmem : e ∈ pfsReach m z := lookupEntry_mem hfound
  have hnode : e.node = p := lookupEntry_node hfound
  refine ⟨?_, ?_, ?_⟩
  · unfold finalRecv
    rw [if_pos (inDepression_of_pit hpit), hfound]
  · rcases List.mem_iff_getElem.mp hmem with ⟨i, hi, hRi⟩
    have hs := reach_sound inv.visited_not_closed inv.visited_nodup
      inv.visited_chain i hi (pfsReach m z).length hi
    rw [hRi, hnode] at hs
    exact ⟨hs.1, hs.2.1, by rw [reroutedPath]; exact hs.2.2.1,
      by rw [reroutedPath]; exact hs.2.2.2⟩
  · intro q hq hopen hlast
    have hopt := reach_optimal (pfsReach_relax m z) (pfsReach_seed m z) q hq
      hopen
    rcases hopt with ⟨e2, he2, he2l, he2c⟩
    rw [hlast] at he2l
    have he2n : e2.node = p := (Option.some.inj he2l).symm
    have : e2 = e := entry_unique inv.visited_nodup he2 hmem
      (by rw [he2n, hnode])
    rw [← this]
    exact he2c

/-! ## Structural properties of the corrected receiver field -/

theorem pfsReach_not_closed (m : Mesh) (z : List ℚ) :
    ∀ e ∈ pfsReach m z, m.statusOf e.node ≠ .closed :=
  (pfsReach_inv m z).visited_not_closed

theorem pfsReach_via_not_closed (m : Mesh) (z : List ℚ) :
    ∀ e ∈ pfsReach m z, m.statusOf e.via ≠ .closed := by
  intro e he
  rcases List.mem_iff_getElem.mp he with ⟨i, hi, hRi⟩
  rcases (pfsReach_inv m z).visited_chain i hi with ⟨hvia, hopen, _⟩ |
    ⟨f, hfpre, hfnode, _, _⟩
  · rw [← hRi, hvia, hopen]
    intro hcon
    cases hcon
  · rw [← hRi, ← hfnode]
    exact (pfsReach_inv m z).visited_not_closed f
      (List.take_subset i (pfsReach m z) hfpre)

theorem finalRecv_of_ge (m : Mesh) (z : List ℚ) {v : Nat}
    (h : ¬ v < m.numNodes) : finalRecv m z v = v := by
  have hs : m.statusOf v = .closed := statusOf_of_ge m h
  have hd : dirReceiver m z v = v := by
    unfold dirReceiver
    rw [hs]
    simp
  have hdep : inDepression m z v = false := by
    unfold inDepression
    rw [iterRecv_sink hd]
    unfold isPit
    rw [hs]
    simp
  unfold finalRecv
  rw [hdep, hd]
  simp

/-- A non-self corrected receiver is never a CLOSED node. -/
theorem finalRecv_not_closed (m : Mesh) (z : List ℚ) {u : Nat}
    (hne : finalRecv m z u ≠ u) :
    m.statusOf (finalRecv m z u) ≠ .closed := by
  unfold finalRecv at hne ⊢
  by_cases hpit : inDepression m z u = true
  · rw [if_pos hpit] at hne ⊢
    cases hlook : lookupEntry (pfsReach m z) u with
    | none => rw [hlook] at hne; exact absurd rfl hne
    | some e =>
        rw [hlook] at hne
        exact pfsReach_via_not_closed m z e (lookupEntry_mem hlook)
  · rw [if_neg hpit] at hne ⊢
    exact canReceive_ne_closed (dirReceiver_canReceive hne)

theorem finalRecv_lt (m : Mesh) (z : List ℚ) :
    ∀ v, v < m.numNodes → finalRecv m z v < m.numNodes := by
  intro v hv
  by_cases hne : finalRecv m z v = v
  · rw [hne]; exact hv
  · exact statusOf_ne_closed_lt m (finalRecv_not_closed m z hne)

/-- A CLOSED node is never any other node's corrected receiver. -/
theorem finalRecv_ne_closed_target (m : Mesh) (z : List ℚ) {v : Nat}
    (hcl : m.statusOf v = .closed) :
    ∀ u, u ≠ v → finalRecv m z u ≠ v := by
  intro u hne hcon
  have h1 : finalRecv m z u ≠ u := by rw [hcon]; exact fun h => hne h.symm
  exact finalRecv_not_closed m z h1 (by rw [hcon]; exact hcl)

theorem finalRecv_self_of_closed (m : Mesh) (z : List ℚ) {v : Nat}
    (hcl : m.statusOf v = .closed) : finalRecv m z v = v := by
  have hd : dirReceiver m z v = v := by
    unfold dirReceiver
    rw [hcl]
    simp
  have hdep : inDepression m z v = false := by
    unfold inDepression
    rw [iterRecv_sink hd]
    unfold isPit
    rw [hcl]
    simp
  unfold finalRecv
  rw [hdep, hd]
  simp

theorem steepestSlope_zero_of_closed (m : Mesh) (z : List ℚ) {v : Nat}
    (hcl : m.statusOf v = .closed) : steepestSlope m z v = 0 := by
  unfold steepestSlope
  rw [hcl]
  simp

theorem accStep_length (recv : Nat → Nat) (input : Nat → ℚ)
    (acc : List ℚ) (v : Nat) :
    (accStep recv input acc v).length = acc.length := by
  unfold accStep
  by_cases h : recv v = v
  · rw [if_pos h, List.length_set]
  · rw [if_neg h, List.length_set, List.length_set]

theorem foldl_accStep_length (recv : Nat → Nat) (input : Nat → ℚ) :
    ∀ (l : List Nat) (acc : List ℚ),
      (l.foldl (accStep recv input) acc).length = acc.length
  | [], _ => rfl
  | v :: l, acc => by
      rw [List.foldl_cons, foldl_accStep_length recv input l, accStep_length]

theorem accumulate_length (n : Nat) (recv : Nat → Nat) (input : Nat → ℚ) :
    (accumulate n recv input).length = n := by
  unfold accumulate
  rw [foldl_accStep_length, List.length_replicate]

theorem valAt_of_ge_length {l : List ℚ} {v : Nat} (h : l.length ≤ v) :
    valAt l v = 0 := by
  rw [valAt, List.getD_eq_default]
  exact h

/-- The fold underlying `pickSteepest` returns a candidate at least as good
as the initial accumulator and as every list element: strictly steeper
gradient, or equal gradient and a no-larger node id. -/
theorem pickSteepest_best {z : List ℚ} {v : Nat} :
    ∀ {l : List (Nat × ℚ)} {b : Option (Nat × ℚ)} {c : Nat × ℚ},
      l.foldl
        (fun best p =>
          match best with
          | none => some p
          | some q =>
              if gradTo z v q < gradTo z v p ∨
                  (gradTo z v q = gradTo z v p ∧ p.1 < q.1) then some p
              else some q)
        b = some c →
      (∀ q, b = some q → gradTo z v q < gradTo z v c ∨
        (gradTo z v q = gradTo z v c ∧ c.1 ≤ q.1)) ∧
      (∀ q ∈ l, gradTo z v q < gradTo z v c ∨
        (gradTo z v q = gradTo z v c ∧ c.1 ≤ q.1))
  | [], b, c, h => by
      refine ⟨?_, ?_⟩
      · intro q hq
        have hb : b = some c := h
        rw [hq] at hb
        rcases Option.some.inj hb with rfl
        exact Or.inr ⟨rfl, le_refl _⟩
      · intro q hq
        exact absurd hq (List.not_mem_nil q)
  | p :: l, b, c, h => by
      simp only [List.foldl] at h
      cases b with
      | none =>
          have hIH := pickSteepest_best (l := l) h
          refine ⟨?_, ?_⟩
          · intro q hq; cases hq
          · intro q hq
            rcases List.mem_cons.mp hq with rfl | hq2
            · exact hIH.1 q rfl
            · exact hIH.2 q hq2
      | some r =>
          dsimp only at h
          by_cases hc : gradTo z v r < gradTo z v p ∨
              (gradTo z v r = gradTo z v p ∧ p.1 < r.1)
          · rw [if_pos hc] at h
            have hIH := pickSteepest_best (l := l) h
            have hbp := hIH.1 p rfl
            have hbr : gradTo z v r < gradTo z v c ∨
                (gradTo z v r = gradTo z v c ∧ c.1 ≤ r.1) := by
              rcases hc with hlt | ⟨heq, hid⟩
              · rcases hbp with h1 | ⟨h1, _⟩
                · exact Or.inl (lt_trans hlt h1)
                · exact Or.inl (h1 ▸ hlt)
              · rcases hbp with h1 | ⟨h1, h2⟩
                · exact Or.inl (heq ▸ h1)
                · exact Or.inr ⟨heq.trans h1, le_trans h2 (le_of_lt hid)⟩
            refine ⟨?_, ?_⟩
            · intro q hq
              rcases Option.some.inj hq with rfl
              exact hbr
            · intro q hq
              rcases List.mem_cons.mp hq with rfl | hq2
              · exact hbp
              · exact hIH.2 q hq2
          · rw [if_neg hc] at h
            have hIH := pickSteepest_best (l := l) h
            have hbr := hIH.1 r rfl
            push_neg at hc
            have hple : gradTo z v p ≤ gradTo z v r := hc.1
            have hbp : gradTo z v p < gradTo z v c ∨
                (gradTo z v p = gradTo z v c ∧ c.1 ≤ p.1) := by
              rcases lt_or_eq_of_le hple with hlt | heq
              · rcases hbr with h1 | ⟨h1, _⟩
                · exact Or.inl (lt_trans hlt h1)
                · exact Or.inl (h1 ▸ hlt)
              · have hid : r.1 ≤ p.1 := hc.2 heq.symm
                rcases hbr with h1 | ⟨h1, h2⟩
                · exact Or.inl (heq ▸ h1)
                · exact Or.inr ⟨heq.trans h1, le_trans h2 hid⟩
            refine ⟨?_, ?_⟩
            · intro q hq
              rcases Option.some.inj hq with rfl
              exact hbr
            · intro q hq
              rcases List.mem_cons.mp hq with rfl | hq2
              · exact hbp
              · exact hIH.2 q hq2

/-! ## Claim theorems -/

/-- Acyclicity of a receiver relation restricted to non-self edges: no node
reaches itself again by following one or more non-self receiver edges. -/
def ReceiverAcyclic (n : Nat) (recv : Nat → Nat) : Prop :=
  ∀ v, v < n → ¬ Relation.TransGen (fun a b => recv a = b ∧ a ≠ b) v v

instance (n : Nat) (recv : Nat → Nat) : Decidable (Terminating n recv) :=
  decidable_of_iff (∀ v, v < n → (chainDepth recv n v).isSome = true) Iff.rfl

/-- Rank of a node in the elevation order: how many mesh nodes lie strictly
below it.  Every non-self resolver edge strictly lowers this rank. -/
def rankElev (n : Nat) (z : List ℚ) (v : Nat) : Nat :=
  ((Finset.range n).filter (fun u => valAt z u < valAt z v)).card

/-- Position of a node in the search's visit order (the list length when
the node was never visited). -/
def pfsIdx (m : Mesh) (z : List ℚ) (v : Nat) : Nat :=
  ((pfsReach m z).map Entry.node).indexOf v

/-- Termination measure for the corrected receiver relation: depression
nodes are ordered by search visit order above everything else, the rest by
elevation rank. -/
def recvMeasure (m : Mesh) (z : List ℚ) (v : Nat) : Nat :=
  if inDepression m z v then m.numNodes + pfsIdx m z v
  else rankElev m.numNodes z v

theorem nodup_indexOf_getElem {l : List Nat} (h : l.Nodup) :
    ∀ (i : Nat) (hi : i < l.length), l.indexOf l[i] = i := by
  induction l with
  | nil => intro i hi; cases hi
  | cons a t ih =>
    intro i hi
    cases i with
    | zero => exact List.indexOf_cons_self a t
    | succ j =>
      have hj : j < t.length := by simpa using hi
      have hne : a ≠ t[j] := by
        intro hcon
        have hmem : a ∈ t := by rw [hcon]; exact List.getElem_mem hj
        exact (List.nodup_cons.mp h).1 hmem
      show (a :: t).indexOf t[j] = j + 1
      rw [List.indexOf_cons_ne t hne, ih (List.nodup_cons.mp h).2 j hj]

theorem rankElev_le (n : Nat) (z : List ℚ) (v : Nat) : rankElev n z v ≤ n :=
  le_trans (Finset.card_filter_le _ _) (le_of_eq (Finset.card_range n))

theorem rankElev_lt_of_elev_lt {n : Nat} {z : List ℚ} {w v : Nat}
    (hw : w < n) (hlt : valAt z w < valAt z v) :
    rankElev n z w < rankElev n z v := by
  unfold rankElev
  apply Finset.card_lt_card
  have hsub : (Finset.range n).filter (fun u => valAt z u < valAt z w) ⊆
      (Finset.range n).filter (fun u => valAt z u < valAt z v) := by
    intro x hx
    rw [Finset.mem_filter] at hx ⊢
    exact ⟨hx.1, lt_trans hx.2 hlt⟩
  refine (Finset.ssubset_iff_of_subset hsub).mpr ⟨w, ?_, ?_⟩
  · rw [Finset.mem_filter, Finset.mem_range]
    exact ⟨hw, hlt⟩
  · rw [Finset.mem_filter]
    rintro ⟨-, hcon⟩
    exact lt_irrefl _ hcon

/-- The corrected receiver strictly decreases the termination measure along
every non-self edge: a rerouted depression node receives an earlier-visited
node of the search forest, every other node receives strictly downhill. -/
theorem finalRecv_measure_lt (m : Mesh) (z : List ℚ) {v : Nat}
    (hne : finalRecv m z v ≠ v) :
    recvMeasure m z (finalRecv m z v) < recvMeasure m z v := by
  by_cases hdep : inDepression m z v = true
  · unfold finalRecv at hne ⊢
    rw [if_pos hdep] at hne ⊢
    cases hlook : lookupEntry (pfsReach m z) v with
    | none => rw [hlook] at hne; exact absurd rfl hne
    | some e =>
      rw [hlook] at hne
      dsimp only at hne ⊢
      have hmem : e ∈ pfsReach m z := lookupEntry_mem hlook
      have hnodev : e.node = v := lookupEntry_node hlook
      rcases List.mem_iff_getElem.mp hmem with ⟨i, hi, hRi⟩
      have hchain := (pfsReach_inv m z).visited_chain i hi
      rw [hRi] at hchain
      rcases hchain with ⟨hvia, -, -⟩ | ⟨f, hf, hfnode, -, -⟩
      · rw [hvia, hnodev] at hne
        exact absurd rfl hne
      · rcases List.mem_iff_getElem.mp hf with ⟨j, hj, hTj⟩
        have hjlen : j < i := by
          rw [List.length_take] at hj
          omega
        have hjR : j < (pfsReach m z).length := by omega
        have hRj : (pfsReach m z)[j] = f := by
          rw [← hTj, List.getElem_take]
        have him : i < ((pfsReach m z).map Entry.node).length := by
          rw [List.length_map]; exact hi
        have hjm : j < ((pfsReach m z).map Entry.node).length := by
          rw [List.length_map]; exact hjR
        have hLi : ((pfsReach m z).map Entry.node)[i] = v := by
          rw [List.getElem_map, hRi, hnodev]
        have hLj : ((pfsReach m z).map Entry.node)[j] = e.via := by
          rw [List.getElem_map, hRj, hfnode]
        have hidxv : pfsIdx m z v = i := by
          unfold pfsIdx
          rw [← hLi]
          exact nodup_indexOf_getElem (pfsReach_inv m z).visited_nodup i him
        have hidxw : pfsIdx m z e.via = j := by
          unfold pfsIdx
          rw [← hLj]
          exact nodup_indexOf_getElem (pfsReach_inv m z).visited_nodup j hjm
        by_cases hdw : inDepression m z e.via = true
        · unfold recvMeasure
          rw [if_pos hdw, if_pos hdep, hidxw, hidxv]
          omega
        · unfold recvMeasure
          rw [if_neg hdw, if_pos hdep, hidxv]
          have h1 := rankElev_le m.numNodes z e.via
          omega
  · unfold finalRecv at hne ⊢
    rw [if_neg hdep] at hne ⊢
    have hdw : ¬ inDepression m z (dirReceiver m z v) = true := by
      rw [inDepression_dirReceiver]
      exact hdep
    unfold recvMeasure
    rw [if_neg hdw, if_neg hdep]
    exact rankElev_lt_of_elev_lt (dirReceiver_lt hne) (dirReceiver_elev_lt hne)

/-- C1: after the full pipeline — flow-direction assignment followed by
depression handling, which reroutes every depression along the
priority-first-search forest toward its barrier outlet — the receiver
relation restricted to non-self edges is acyclic for every mesh and every
elevation input: no node reaches itself again by following one or more
non-self receiver edges. -/
theorem c1_pipeline_receiver_acyclic (m : Mesh) (z : List ℚ) :
    ReceiverAcyclic m.numNodes (finalRecv m z) := by
  intro v hv hcyc
  have key : ∀ a b,
      Relation.TransGen (fun a b => finalRecv m z a = b ∧ a ≠ b) a b →
      recvMeasure m z b < recvMeasure m z a := by
    intro a b h
    induction h with
    | single hstep =>
      rcases hstep with ⟨heq, hne⟩
      rw [← heq]
      exact finalRecv_measure_lt m z
        (fun hc => hne ((heq.symm.trans hc).symm))
    | tail hab hbc ih =>
      rcases hbc with ⟨heq, hne⟩
      refine lt_trans ?_ ih
      rw [← heq]
      exact finalRecv_measure_lt m z
        (fun hc => hne ((heq.symm.trans hc).symm))
  exact absurd (key v v hcyc) (lt_irrefl _)

/-- On the 4-node chain with the pit 3 behind rim 2, the handler reroutes
the whole depression: the rim no longer drains into the pit but back along
the search forest toward the open boundary (2 receives 1, the pit receives
2), so the corrected chain 3 - 2 - 1 - 0 reaches the outlet. -/
theorem reroute4_eq :
    finalRecv mesh4 z4 0 = 0 ∧ finalRecv mesh4 z4 1 = 0 ∧
    finalRecv mesh4 z4 2 = 1 ∧ finalRecv mesh4 z4 3 = 2 := by
  refine ⟨rfl, ?_, ?_, ?_⟩
  · norm_num [finalRecv, inDepression, iterRecv, isPit, dirReceiver,
      pickSteepest, downhillNbrs, gradTo, canReceive, Mesh.nbrs,
      Mesh.statusOf, mesh4, z4, valAt]
    intro h
    cases h
  · norm_num [finalRecv, inDepression, iterRecv, isPit, dirReceiver,
      pickSteepest, downhillNbrs, gradTo, canReceive, Mesh.nbrs,
      Mesh.statusOf, mesh4, z4, valAt, lookupEntry, pfsReach, pfsAux,
      pfsFuel, popMin, seedEntries, pushEntries, List.range_succ,
      List.find?]
    rfl
  · norm_num [finalRecv, inDepression, iterRecv, isPit, dirReceiver,
      pickSteepest, downhillNbrs, gradTo, canReceive, Mesh.nbrs,
      Mesh.statusOf, mesh4, z4, valAt, lookupEntry, pfsReach, pfsAux,
      pfsFuel, popMin, seedEntries, pushEntries, List.range_succ,
      List.find?]
    rfl

/-- C2: whenever the corrected receiver relation is a forest, the
accumulated value at every node equals the sum of the per-node input
quantity over the node's drainage sub-tree, and the drainage areas
accumulated at the sinks sum exactly to the total cell area of the mesh. -/
theorem c2_accumulator_subtree_conservation (m : Mesh) (z : List ℚ)
    (input : Nat → ℚ) (hT : Terminating m.numNodes (finalRecv m z)) :
    (∀ r, r < m.numNodes →
      valAt (accumulate m.numNodes (finalRecv m z) input) r =
        subtreeSum m.numNodes (finalRecv m z) input r) ∧
    (∑ s ∈ (Finset.range m.numNodes).filter (fun s => finalRecv m z s = s),
        valAt (drainageArea m z) s =
      ∑ v ∈ Finset.range m.numNodes, m.areaOf v) := by
  have hR := finalRecv_lt m z
  constructor
  · intro r hr
    exact accumulate_eq_subtreeSum input hT hR hr
  · have h1 : ∀ s ∈ (Finset.range m.numNodes).filter
        (fun s => finalRecv m z s = s),
        valAt (drainageArea m z) s =
          subtreeSum m.numNodes (finalRecv m z) m.areaOf s := by
      intro s hs
      rw [Finset.mem_filter, Finset.mem_range] at hs
      exact accumulate_eq_subtreeSum m.areaOf hT hR hs.1
    rw [Finset.sum_congr rfl h1]
    exact sum_subtree_sinks m.areaOf hT hR

/-- Receiver table of the tutorial 3-by-4 grid run. -/
def recvTable : Nat → Nat :=
  fun v => [0, 1, 2, 3, 4, 1, 2, 7, 8, 9, 10, 11].getD v v

theorem dirRecv12_eq : dirReceiver mesh12 z12 = recvTable := by
  funext v
  match v with
  | 0 | 1 | 2 | 3 | 4 | 7 | 8 | 9 | 10 | 11 => rfl
  | 5 =>
    show dirReceiver mesh12 z12 5 = 1
    norm_num [dirReceiver, pickSteepest, downhillNbrs,
      gradTo, canReceive, Mesh.nbrs, Mesh.statusOf, mesh12, z12, valAt]
  | 6 =>
    show dirReceiver mesh12 z12 6 = 2
    norm_num [dirReceiver, pickSteepest, downhillNbrs,
      gradTo, canReceive, Mesh.nbrs, Mesh.statusOf, mesh12, z12, valAt]
  | n + 12 => rfl

/-- The tutorial grid run has no depression at all. -/
theorem noDepression12 : ∀ v, inDepression mesh12 z12 v = false := by
  intro v
  rcases Nat.lt_or_ge v 12 with hv | hv
  · unfold inDepression
    rw [show mesh12.numNodes = 12 from rfl, dirRecv12_eq]
    interval_cases v <;> rfl
  · have hcl : mesh12.statusOf v = .closed :=
      statusOf_of_ge mesh12 (show ¬ v < 12 by omega)
    have hd : dirReceiver mesh12 z12 v = v :=
      dirReceiver_of_not_core (by rw [hcl]; simp)
    unfold inDepression
    rw [iterRecv_sink hd]
    unfold isPit
    rw [hcl]
    simp

theorem recv12_eq : finalRecv mesh12 z12 = recvTable := by
  funext v
  unfold finalRecv
  rw [noDepression12 v]
  simp only [Bool.false_eq_true, if_false]
  exact congrFun dirRecv12_eq v

theorem terminating12 : Terminating mesh12.numNodes (finalRecv mesh12 z12) := by
  rw [show mesh12.numNodes = 12 from rfl, recv12_eq]
  decide

/-- Witness for C2 at the tutorial grid. -/
theorem c2_accumulator_subtree_conservation_witness :
    (∀ r, r < mesh12.numNodes →
      valAt (accumulate mesh12.numNodes (finalRecv mesh12 z12)
          mesh12.areaOf) r =
        subtreeSum mesh12.numNodes (finalRecv mesh12 z12) mesh12.areaOf r) ∧
    (∑ s ∈ (Finset.range mesh12.numNodes).filter
        (fun s => finalRecv mesh12 z12 s = s),
        valAt (drainageArea mesh12 z12) s =
      ∑ v ∈ Finset.range mesh12.numNodes, mesh12.areaOf v) :=
  c2_accumulator_subtree_conservation mesh12 z12 mesh12.areaOf terminating12

/-- C4: the pipeline is a pure function of its inputs — two runs on equal
topology, elevation and runoff inputs produce equal output arrays — and
every gradient tie is broken by the fixed ascending-neighbor-id policy: the
chosen receiver is a downhill candidate whose gradient is strictly steepest,
or ties the steepest with the smallest node id. -/
theorem c4_pipeline_determinism_and_tiebreak :
    (∀ (m1 m2 : Mesh) (z1 z2 r1 r2 : List ℚ), m1 = m2 → z1 = z2 → r1 = r2 →
      runPipeline m1 z1 r1 = runPipeline m2 z2 r2) ∧
    (∀ (m : Mesh) (z : List ℚ) (v : Nat) (c : Nat × ℚ),
      pickSteepest z v (downhillNbrs m z v) = some c →
      c ∈ downhillNbrs m z v ∧
      ∀ q ∈ downhillNbrs m z v,
        gradTo z v q < gradTo z v c ∨
          (gradTo z v q = gradTo z v c ∧ c.1 ≤ q.1)) := by
  constructor
  · rintro m1 m2 z1 z2 r1 r2 rfl rfl rfl
    rfl
  · intro m z v c h
    have h2 : (downhillNbrs m z v).foldl
        (fun best p =>
          match best with
          | none => some p
          | some q =>
              if gradTo z v q < gradTo z v p ∨
                  (gradTo z v q = gradTo z v p ∧ p.1 < q.1) then some p
              else some q)
        none = some c := h
    refine ⟨?_, (pickSteepest_best h2).2⟩
    rcases pickSteepest_mem (l := downhillNbrs m z v) h2 with h1 | h1
    · cases h1
    · exact h1

/-- C5: with depression handling enabled, a topology with zero open-boundary
nodes makes the checked pipeline fail immediately with a configuration
error; it never completes as a silent no-op on such an input. -/
theorem c5_zero_open_boundary_is_config_error (m : Mesh) (z runoff : List ℚ)
    (hz : z.length = m.numNodes) (hr : runoff.length = m.numNodes)
    (hob : openBoundaryNodes m = []) :
    runPipelineChecked m z runoff true = .error .noOpenBoundary := by
  unfold runPipelineChecked
  rw [if_pos ⟨hz, hr⟩, if_pos ⟨rfl, hob⟩]

/-- A one-node mesh whose only node is CLOSED. -/
def meshClosed : Mesh :=
  { numNodes := 1, adj := [[]], status := [.closed], cellArea := [0] }

/-- Witness for C5 at a fully closed mesh. -/
theorem c5_zero_open_boundary_is_config_error_witness :
    runPipelineChecked meshClosed [0] [0] true = .error .noOpenBoundary :=
  c5_zero_open_boundary_is_config_error meshClosed [0] [0] rfl rfl (by decide)

/-- C6: after accumulation over a receiver forest with nonnegative cell
areas, every node's drainage area equals, hence is at least, its own cell
area plus the drainage areas of all its donors, and in particular is at
least its own cell area. -/
theorem c6_drainage_area_dominates_donors (m : Mesh) (z : List ℚ)
    (hT : Terminating m.numNodes (finalRecv m z))
    (hA : ∀ v, v < m.numNodes → 0 ≤ m.areaOf v) :
    ∀ v, v < m.numNodes →
      m.areaOf v + ∑ d ∈ donorSet m.numNodes (finalRecv m z) v,
          valAt (drainageArea m z) d ≤ valAt (drainageArea m z) v ∧
      m.areaOf v ≤ valAt (drainageArea m z) v := by
  have hR := finalRecv_lt m z
  intro v hv
  have hsub : ∀ w, w < m.numNodes → valAt (drainageArea m z) w =
      subtreeSum m.numNodes (finalRecv m z) m.areaOf w := by
    intro w hw
    exact accumulate_eq_subtreeSum m.areaOf hT hR hw
  have hnonneg : ∀ w, w < m.numNodes →
      0 ≤ subtreeSum m.numNodes (finalRecv m z) m.areaOf w := by
    intro w _
    apply Finset.sum_nonneg
    intro u hu
    rw [Finset.mem_range] at hu
    by_cases hdr : drainsTo m.numNodes (finalRecv m z) u w = true
    · rw [if_pos hdr]
      exact hA u hu
    · rw [if_neg hdr]
  have heq : valAt (drainageArea m z) v =
      m.areaOf v + ∑ d ∈ donorSet m.numNodes (finalRecv m z) v,
        valAt (drainageArea m z) d := by
    rw [hsub v hv, subtreeSum_partition hT hR m.areaOf hv]
    congr 1
    apply Finset.sum_congr rfl
    intro d hd
    rw [donorSet, Finset.mem_filter, Finset.mem_range] at hd
    exact (hsub d hd.1).symm
  constructor
  · exact le_of_eq heq.symm
  · rw [heq]
    have hdon : 0 ≤ ∑ d ∈ donorSet m.numNodes (finalRecv m z) v,
        valAt (drainageArea m z) d := by
      apply Finset.sum_nonneg
      intro d hd
      rw [donorSet, Finset.mem_filter, Finset.mem_range] at hd
      rw [hsub d hd.1]
      exact hnonneg d hd.1
    linarith

/-- Witness for C6 at node 5 of the tutorial grid. -/
theorem c6_drainage_area_dominates_donors_witness :
    mesh12.areaOf 5 + ∑ d ∈ donorSet mesh12.numNodes
        (finalRecv mesh12 z12) 5, valAt (drainageArea mesh12 z12) d ≤
      valAt (drainageArea mesh12 z12) 5 ∧
    mesh12.areaOf 5 ≤ valAt (drainageArea mesh12 z12) 5 :=
  c6_drainage_area_dominates_donors mesh12 z12 terminating12
    (by
      intro v hv
      rw [show mesh12.numNodes = 12 from rfl] at hv
      interval_cases v <;> norm_num [Mesh.areaOf, mesh12])
    5 (by norm_num [mesh12])

/-- C7: a CLOSED node is never assigned as any node's receiver by the
resolver or the depression handler, computes no flow direction of its own
(it receives itself and its steepest-gradient entry is zero), and — over a
receiver forest, given that it has no cell — its accumulated drainage area
is zero. -/
theorem c7_closed_nodes_inert (m : Mesh) (z : List ℚ) (v : Nat)
    (hcl : m.statusOf v = .closed) :
    (∀ u, u ≠ v → finalRecv m z u ≠ v) ∧
    finalRecv m z v = v ∧
    steepestSlope m z v = 0 ∧
    (Terminating m.numNodes (finalRecv m z) → m.areaOf v = 0 →
      valAt (drainageArea m z) v = 0) := by
  refine ⟨finalRecv_ne_closed_target m z hcl, finalRecv_self_of_closed m z hcl,
    steepestSlope_zero_of_closed m z hcl, ?_⟩
  intro hT hA
  by_cases hv : v < m.numNodes
  · have hR := finalRecv_lt m z
    rw [drainageArea, accumulate_eq_subtreeSum m.areaOf hT hR hv]
    unfold subtreeSum
    refine (Finset.sum_eq_single v ?_ ?_).trans ?_
    · intro u hu hune
      rw [Finset.mem_range] at hu
      by_cases hdr : drainsTo m.numNodes (finalRecv m z) u v = true
      · exfalso
        rcases drainsTo_donor_split hT hR hu hv hdr hune with ⟨d, hd, _⟩
        rw [donorSet, Finset.mem_filter, Finset.mem_range] at hd
        exact finalRecv_ne_closed_target m z hcl d hd.2.2 hd.2.1
      · rw [if_neg hdr]
    · intro habs
      exact absurd (Finset.mem_range.mpr hv) habs
    · rw [if_pos (drainsTo_self _ _ _), hA]
  · rw [drainageArea]
    apply valAt_of_ge_length
    rw [accumulate_length]
    omega

/-- Witness for C7 at the closed node 4 of the tutorial grid. -/
theorem c7_closed_nodes_inert_witness :
    (∀ u, u ≠ 4 → finalRecv mesh12 z12 u ≠ 4) ∧
    finalRecv mesh12 z12 4 = 4 ∧
    steepestSlope mesh12 z12 4 = 0 ∧
    (Terminating mesh12.numNodes (finalRecv mesh12 z12) →
      mesh12.areaOf 4 = 0 → valAt (drainageArea mesh12 z12) 4 = 0) :=
  c7_closed_nodes_inert mesh12 z12 4 rfl

/-- Witness for C3 at the pit node 3 of the 4-node chain, reached through
entry ⟨3, 2, 10⟩. -/
theorem c3_depression_handler_minimax_witness :
    finalRecv mesh4 z4 3 = Entry.via ⟨3, 2, 10⟩ ∧
    (ValidPath mesh4 (reroutedPath mesh4 z4 3) ∧
      (∃ b, (reroutedPath mesh4 z4 3).head? = some b ∧
        mesh4.statusOf b = .fixedValue) ∧
      (reroutedPath mesh4 z4 3).getLast? = some 3 ∧
      pathMax z4 (reroutedPath mesh4 z4 3) = Entry.cost ⟨3, 2, 10⟩) ∧
    (∀ q, ValidPath mesh4 q →
      (∃ b, q.head? = some b ∧ mesh4.statusOf b = .fixedValue) →
      q.getLast? = some 3 → Entry.cost ⟨3, 2, 10⟩ ≤ pathMax z4 q) :=
  c3_depression_handler_minimax mesh4 z4 3 ⟨3, 2, 10⟩
    (by norm_num [isPit, dirReceiver, pickSteepest, downhillNbrs, gradTo,
      canReceive, Mesh.nbrs, Mesh.statusOf, mesh4, z4, valAt])
    (by
      norm_num [lookupEntry, pfsReach, pfsAux, pfsFuel, popMin, seedEntries,
        pushEntries, Mesh.nbrs, Mesh.statusOf, mesh4, z4, valAt,
        List.range_succ, List.find?]
      rfl)

/-- Drainage areas on the tutorial 3-by-4 grid: the two core nodes and their
two outlets carry 100 each, every other node carries 0. -/
theorem drainage12_eq :
    drainageArea mesh12 z12 = [0, 100, 100, 0, 0, 100, 100, 0, 0, 0, 0, 0] := by
  rw [drainageArea, recv12_eq, show mesh12.numNodes = 12 from rfl,
    accumulate, show upstreamOrder 12 recvTable =
      [5, 6, 0, 1, 2, 3, 4, 7, 8, 9, 10, 11] from rfl]
  norm_num [accStep, recvTable, Mesh.areaOf, mesh12, List.foldl_cons,
    List.foldl_nil, List.replicate, List.set, List.getD, List.get?]

/-- C8: on the tutorial 3-by-4 raster grid (10 m spacing, flat except nodes
5 at 5.0 and 6 at 18/5, open bottom edge) the pipeline leaves no pit, both
interior nodes drain to open-boundary nodes, drainage area is monotone along
every receiver edge, and each outlet's accumulated area is the exact sum of
the cell areas of its contributing nodes — concretely 100 at each outlet. -/
theorem c8_tutorial_grid_scenario :
    (∀ v, v < mesh12.numNodes → isPit mesh12 z12 v = false) ∧
    (finalRecv mesh12 z12 5 = 1 ∧ mesh12.statusOf 1 = .fixedValue) ∧
    (finalRecv mesh12 z12 6 = 2 ∧ mesh12.statusOf 2 = .fixedValue) ∧
    (∀ v, v < mesh12.numNodes →
      valAt (drainageArea mesh12 z12) v ≤
        valAt (drainageArea mesh12 z12) (finalRecv mesh12 z12 v)) ∧
    (∀ s, s < mesh12.numNodes → finalRecv mesh12 z12 s = s →
      valAt (drainageArea mesh12 z12) s =
        subtreeSum mesh12.numNodes (finalRecv mesh12 z12) mesh12.areaOf s) ∧
    valAt (drainageArea mesh12 z12) 1 = 100 ∧
    valAt (drainageArea mesh12 z12) 2 = 100 := by
  refine ⟨?_, ?_, ?_, ?_, ?_, ?_, ?_⟩
  · intro v hv
    rw [show mesh12.numNodes = 12 from rfl] at hv
    interval_cases v
    · rfl
    · rfl
    · rfl
    · rfl
    · rfl
    · norm_num [isPit, dirReceiver, pickSteepest, downhillNbrs, gradTo,
        canReceive, Mesh.nbrs, Mesh.statusOf, mesh12, z12, valAt]
    · norm_num [isPit, dirReceiver, pickSteepest, downhillNbrs, gradTo,
        canReceive, Mesh.nbrs, Mesh.statusOf, mesh12, z12, valAt]
    · rfl
    · rfl
    · rfl
    · rfl
    · rfl
  · exact ⟨by rw [recv12_eq]; rfl, rfl⟩
  · exact ⟨by rw [recv12_eq]; rfl, rfl⟩
  · intro v hv
    rw [show mesh12.numNodes = 12 from rfl] at hv
    rw [drainage12_eq, recv12_eq]
    interval_cases v <;> norm_num [recvTable, valAt]
  · intro s hs _
    exact accumulate_eq_subtreeSum mesh12.areaOf terminating12
      (finalRecv_lt mesh12 z12) hs
  · rw [drainage12_eq]; rfl
  · rw [drainage12_eq]; rfl

/-- C9: for every link-flux array, the flux divergence is exactly zero at
every node without a cell, regardless of the flux values on its incident
links. -/
theorem c9_flux_div_zero_at_perimeter (g : LinkGrid) (q : List ℚ) (v : Nat)
    (h : g.cellAt v = false) : calc_flux_div_at_node g q v = 0 := by
  simp [calc_flux_div_at_node, h]

/-- Witness for C9 at perimeter node 0 of the tutorial grid. -/
theorem c9_flux_div_zero_at_perimeter_witness :
    gridTut.cellAt 0 = false ∧ calc_flux_div_at_node gridTut qTut 0 = 0 :=
  ⟨rfl, c9_flux_div_zero_at_perimeter gridTut qTut 0 rfl⟩

/-- The tutorial net outgoing fluxes at the two cell nodes. -/
theorem netSumTut5 : netFluxSum gridTut qTut 5 = 41 / 250 := by
  norm_num [netFluxSum, qTut, calc_grad_at_link, gridTut, z12, valAt,
    LinkGrid.numLinks, LinkGrid.tailOf, LinkGrid.headOf, LinkGrid.widthOf,
    List.range_succ]

theorem netSumTut6 : netFluxSum gridTut qTut 6 = 47 / 500 := by
  norm_num [netFluxSum, qTut, calc_grad_at_link, gridTut, z12, valAt,
    LinkGrid.numLinks, LinkGrid.tailOf, LinkGrid.headOf, LinkGrid.widthOf,
    List.range_succ]

/-- C10: at every node with a cell of nonzero area, the net flux equals the
flux divergence times the cell area; on the tutorial grid the net fluxes at
nodes 5 and 6 are 41/250 and 47/500 against divergences 41/25000 and
47/50000 with 100 square-meter cells. -/
theorem c10_net_flux_is_divergence_times_area :
    (∀ (g : LinkGrid) (q : List ℚ) (v : Nat),
      g.cellAt v = true → g.areaAt v ≠ 0 →
      calc_net_flux_at_node g q v = calc_flux_div_at_node g q v * g.areaAt v) ∧
    calc_net_flux_at_node gridTut qTut 5 = 41 / 250 ∧
    calc_net_flux_at_node gridTut qTut 6 = 47 / 500 ∧
    calc_flux_div_at_node gridTut qTut 5 = 41 / 25000 ∧
    calc_flux_div_at_node gridTut qTut 6 = 47 / 50000 ∧
    gridTut.areaAt 5 = 100 ∧
    gridTut.areaAt 6 = 100 := by
  refine ⟨?_, ?_, ?_, ?_, ?_, rfl, rfl⟩
  · intro g q v hc ha
    rw [calc_net_flux_at_node, calc_flux_div_at_node, if_pos hc, if_pos hc,
      div_mul_cancel₀ _ ha]
  · rw [calc_net_flux_at_node, if_pos (show gridTut.cellAt 5 = true from rfl),
      netSumTut5]
  · rw [calc_net_flux_at_node, if_pos (show gridTut.cellAt 6 = true from rfl),
      netSumTut6]
  · rw [calc_flux_div_at_node, if_pos (show gridTut.cellAt 5 = true from rfl),
      netSumTut5, show gridTut.areaAt 5 = 100 from rfl]
    norm_num
  · rw [calc_flux_div_at_node, if_pos (show gridTut.cellAt 6 = true from rfl),
      netSumTut6, show gridTut.areaAt 6 = 100 from rfl]
    norm_num
